import Mathlib

/-!
# Verification of the weekly-planner core state model

A shallow embedding of the in-memory state model and derivation logic of the
weekly-planner application: quantity parsing and aggregation (utils.js),
the shopping-list engine (shopping.js), the item store and index
(store.js, items.js), bundle resolution and deletion (bundles.js), and the
weekly-plan slot bookkeeping (weekly.js).

Modelling conventions:
* JavaScript strings are modelled as `List Char` (`Str`); the JS falsy values
  `''`, `null` and `undefined` coincide in every use below, so an absent or
  empty string field is modelled by `[]`.
* JS numbers are modelled by `ℚ` (exact rationals).  The built-ins `Number`
  and `parseFloat` are modelled on decimal literals (sign, digits, fraction
  part, exponent); hex literals and `Infinity` are out of scope here.
* JS `Set`/`Map` values are modelled by lists (of members / key-value pairs);
  the JS containers hold distinct members, which the list operations used
  below respect.
* Fallible code (an operation that would throw a `TypeError`) returns
  `Option`, with `none` for the throwing execution.
-/

/-! ## Strings and digits -/

abbrev Str := List Char

def strOf (s : String) : Str := s.data

/-- Whitespace as used by `String.trim` / the regex class `\s` (common cases). -/
def isWS (c : Char) : Bool := c == ' ' || c == '\t' || c == '\n' || c == '\r'

/-- Models `String.prototype.toLowerCase` (ASCII range). -/
def lowerStr (s : Str) : Str := s.map Char.toLower

/-- Models `String.prototype.trim`. -/
def trimStr (s : Str) : Str := ((s.dropWhile isWS).reverse.dropWhile isWS).reverse

/-- Models `String.prototype.split(sep)` for a one-character separator. -/
def splitOnChar (sep : Char) : Str → List Str
  | [] => [[]]
  | c :: rest =>
    if c = sep then [] :: splitOnChar sep rest
    else
      match splitOnChar sep rest with
      | [] => [[c]]
      | h :: t => (c :: h) :: t

def charVal (c : Char) : ℕ := c.toNat - 48

/-- Value of a string of decimal digits. -/
def digitsToNat (l : Str) : ℕ := l.foldl (fun a c => 10 * a + charVal c) 0

def digitChar : ℕ → Char
  | 0 => '0' | 1 => '1' | 2 => '2' | 3 => '3' | 4 => '4'
  | 5 => '5' | 6 => '6' | 7 => '7' | 8 => '8' | _ => '9'

def natToDigitsAux : ℕ → ℕ → Str
  | _, 0 => []
  | n, fuel + 1 =>
    if n < 10 then [digitChar n]
    else natToDigitsAux (n / 10) fuel ++ [digitChar (n % 10)]

/-- Decimal rendering of a natural number (JS number-to-string on naturals). -/
def natToDigits (n : ℕ) : Str := natToDigitsAux n (n + 1)

/-- A nonempty, all-digit string (a decimal numeral). -/
def IsDigits (l : Str) : Prop := l ≠ [] ∧ ∀ c ∈ l, c.isDigit

instance (l : Str) : Decidable (IsDigits l) := by unfold IsDigits; infer_instance

/-! ## JS numeric built-ins on decimal literals

`jsNumber` models `Number(string)` (`none` = `NaN`), `parseFloatJS` models
`parseFloat(string)` (`none` = `NaN`). -/

def parseSign : Str → Bool × Str
  | [] => (false, [])
  | c :: r =>
    if c = '-' then (true, r)
    else if c = '+' then (false, r)
    else (false, c :: r)

def parseExpAfter (v : ℚ) (orig r : Str) : ℚ × Str :=
  let (neg, r2) := parseSign r
  let es := r2.takeWhile Char.isDigit
  let r3 := r2.dropWhile Char.isDigit
  if es = [] then (v, orig)
  else (if neg then v / 10 ^ digitsToNat es else v * 10 ^ digitsToNat es, r3)

def parseExp (v : ℚ) (l : Str) : ℚ × Str :=
  match l with
  | [] => (v, [])
  | c :: r =>
    if c = 'e' ∨ c = 'E' then parseExpAfter v (c :: r) r else (v, c :: r)

/-- Longest-prefix parse of an unsigned decimal literal: digits, optional
fraction part, optional exponent.  Returns the value and the unconsumed rest;
`none` when no literal starts the string. -/
def parseDec (l : Str) : Option (ℚ × Str) :=
  let ds := l.takeWhile Char.isDigit
  let r1 := l.dropWhile Char.isDigit
  match r1 with
  | c :: r2 =>
    if c = '.' then
      let fs := r2.takeWhile Char.isDigit
      let r3 := r2.dropWhile Char.isDigit
      if ds = [] then
        if fs = [] then none
        else some (parseExp ((digitsToNat fs : ℚ) / 10 ^ fs.length) r3)
      else some (parseExp ((digitsToNat ds : ℚ) + (digitsToNat fs : ℚ) / 10 ^ fs.length) r3)
    else
      if ds = [] then none
      else some (parseExp ((digitsToNat ds : ℚ)) (c :: r2))
  | [] =>
    if ds = [] then none
    else some (parseExp ((digitsToNat ds : ℚ)) [])

def parseSignedDec (l : Str) : Option (ℚ × Str) :=
  (parseDec (parseSign l).2).map (fun p => (if (parseSign l).1 then -p.1 else p.1, p.2))

/-- `Number(s)`: trims, `''` is `0`, otherwise the whole string must be a
signed decimal literal. -/
def jsNumber (s : Str) : Option ℚ :=
  if trimStr s = [] then some 0
  else
    match parseSignedDec (trimStr s) with
    | some (v, []) => some v
    | _ => none

/-- `parseFloat(s)`: skips leading whitespace, parses the longest valid
prefix, ignores the rest. -/
def parseFloatJS (s : Str) : Option ℚ :=
  (parseSignedDec (s.dropWhile isWS)).map (·.1)

/-! ## `parseQuantity` (utils.js) -/

/-- The argument of `parseQuantity`: a JS number or a JS string. -/
inductive QtyVal where
  | num (q : ℚ)
  | str (s : Str)
deriving DecidableEq

/-- The `str.includes('/')` branch: split on `'/'`, `Number` both parts,
return `num / denom` when both are numeric and the denominator is nonzero. -/
def fracBranch (t : Str) : Option ℚ :=
  if t.contains '/' then
    match splitOnChar '/' t with
    | a :: b :: _ =>
      match jsNumber a, jsNumber b with
      | some n, some d => if d ≠ 0 then some (n / d) else none
      | _, _ => none
    | _ => none
  else none

/-- Matcher for the regex `/^(\d+)\s+(\d+)\/(\d+)$/`: returns the three
captured digit groups.  (The character classes `\d` and `\s` are disjoint,
so greedy left-to-right matching is exact.) -/
def matchMixed (l : Str) : Option (Str × Str × Str) :=
  let w := l.takeWhile Char.isDigit
  let r1 := l.dropWhile Char.isDigit
  if w = [] then none
  else
    let sp := r1.takeWhile isWS
    let r2 := r1.dropWhile isWS
    if sp = [] then none
    else
      let a := r2.takeWhile Char.isDigit
      let r3 := r2.dropWhile Char.isDigit
      if a = [] then none
      else
        match r3 with
        | c :: r4 =>
          if c = '/' then
            let b := r4.takeWhile Char.isDigit
            let r5 := r4.dropWhile Char.isDigit
            if b = [] then none
            else if r5 = [] then some (w, a, b) else none
          else none
        | [] => none

/-- The mixed-fraction branch: on a regex match, `whole + num / denom` when
the denominator is nonzero.  (`Number` on the digit-only capture groups is
exact, see `jsNumber_digits`.) -/
def mixedBranch (t : Str) : Option ℚ :=
  match matchMixed t with
  | none => none
  | some (w, a, b) =>
    if digitsToNat b ≠ 0 then
      some ((digitsToNat w : ℚ) + (digitsToNat a : ℚ) / (digitsToNat b : ℚ))
    else none

/-- `parseQuantity(qty)` from utils.js: numbers pass through; falsy (empty)
strings give 1; then the fraction branch, the mixed-fraction branch, and a
`parseFloat` fallback defaulting to 1. -/
def parseQuantity : QtyVal → ℚ
  | .num q => q
  | .str s =>
    if s = [] then 1
    else
      let t := trimStr s
      match fracBranch t with
      | some v => v
      | none =>
        match mixedBranch t with
        | some v => v
        | none =>
          match parseFloatJS t with
          | some v => v
          | none => 1

/-! ## `combineQuantities` (utils.js) -/

/-- A quantity record `{num, unit, from}` of a shopping entry.  The JS field
`from` is a Lean keyword and is named `srcTag` here; a record created without
it (see `incrementShoppingQty`) carries `[]`. -/
structure QRec where
  num : QtyVal
  unit : Str
  srcTag : Str
deriving DecidableEq

/-- `byUnit[unit] = (byUnit[unit] || 0) + num`: object update, keeping
first-seen key order (JS object insertion order). -/
def addToGroups : List (Str × ℚ) → Str → ℚ → List (Str × ℚ)
  | [], u, v => [(u, v)]
  | (u', t) :: rest, u, v =>
    if u' = u then (u', t + v) :: rest else (u', t) :: addToGroups rest u v

/-- The grouping loop of `combineQuantities`.  (`q.unit || ''` is the
identity on the `Str` model, where an absent unit is `[]`.) -/
def groupByUnit (qs : List QRec) : List (Str × ℚ) :=
  qs.foldl (fun gs q => addToGroups gs q.unit (parseQuantity q.num)) []

/-- JS integer-to-string. -/
def intToStr (n : ℤ) : Str :=
  if n < 0 then '-' :: natToDigits n.natAbs else natToDigits n.natAbs

/-- `toFixed(1)` on a nonnegative rational: nearest multiple of 1/10, ties
upward, printed with exactly one digit after the point. -/
def toFixed1abs (t : ℚ) : Str :=
  let n : ℕ := (⌊t * 10 + 1 / 2⌋).toNat
  natToDigits (n / 10) ++ '.' :: [digitChar (n % 10)]

/-- `Number.prototype.toFixed(1)`. -/
def toFixed1 (t : ℚ) : Str :=
  if t < 0 then '-' :: toFixed1abs (-t) else toFixed1abs t

/-- `Number.isInteger(total) ? total.toString() : total.toFixed(1)`.
On the `ℚ` model, integrality is `t.den = 1`. -/
def formatTotal (t : ℚ) : Str :=
  if t.den = 1 then intToStr t.num else toFixed1 t

/-- One group of the output: `includeUnit && unit` prefixes the (truthy,
i.e. nonempty) unit with a space. -/
def formatGroup (includeUnit : Bool) (u : Str) (t : ℚ) : Str :=
  match includeUnit, u with
  | true, _ :: _ => formatTotal t ++ ' ' :: u
  | _, _ => formatTotal t

/-- `parts.join(' + ')`. -/
def joinPlus : List Str → Str
  | [] => []
  | [p] => p
  | p :: rest => p ++ ' ' :: '+' :: ' ' :: joinPlus rest

/-- `combineQuantities(quantities, includeUnit)` from utils.js.  (A missing
`quantities` argument behaves as the empty list.) -/
def combineQuantities (qs : List QRec) (includeUnit : Bool) : Str :=
  if qs = [] then strOf "1"
  else
    let parts := (groupByUnit qs).map (fun g => formatGroup includeUnit g.1 g.2)
    let j := joinPlus parts
    if j = [] then strOf "1" else j

/-! ## Items and sources (store.js data model) -/

structure Source where
  store : Str
  url : Str
  note : Str
deriving DecidableEq

structure Item where
  id : Str
  name : Str
  category : Str
  unit : Str
  sources : List Source
deriving DecidableEq

/-- `getItemUrl(item, preferredStore = 'Tesco')` from store.js: the preferred
store's URL when present and nonempty, else the first nonempty URL, else `''`. -/
def getItemUrl (item : Item) (preferredStore : Str) : Str :=
  if item.sources = [] then []
  else
    let firstUrl : Str :=
      match item.sources.find? (fun s => !s.url.isEmpty) with
      | some f => f.url
      | none => []
    match item.sources.find? (fun s => s.store == preferredStore) with
    | some p => if p.url = [] then firstUrl else p.url
    | none => firstUrl

/-! ## Shopping list engine (shopping.js) -/

/-- A shopping-list entry.  Entries created by `addManualToShopping` have no
`itemId` (`none`); `quantities` may be absent (`none`) on legacy data. -/
structure ShopEntry where
  itemId : Option Str
  name : Str
  category : Str
  unit : Str
  url : Str
  store : Str
  quantities : Option (List QRec)
  checked : Bool
deriving DecidableEq

/-- The options object `{quantity = 1, from = '', unit = null}` of
`addToShoppingList`; a `null`/`''` unit override is `[]`. -/
structure AddOpts where
  quantity : QtyVal
  srcTag : Str
  unitOv : Str
deriving DecidableEq

/-- The merge identity of `addToShoppingList`:
`s.itemId === item.id || s.name === item.name`. -/
def shopMatch (item : Item) (s : ShopEntry) : Bool :=
  s.itemId == some item.id || s.name == item.name

/-- The quantity record pushed by `addToShoppingList`:
`{num: quantity, unit: unit || item.unit || '', from}`. -/
def mkShopRec (item : Item) (o : AddOpts) : QRec :=
  { num := o.quantity
    unit := if o.unitOv = [] then item.unit else o.unitOv
    srcTag := o.srcTag }

/-- The merge arm of `addToShoppingList`: append a quantity record (seeding
`quantities` if absent) and reset `checked`. -/
def mergeShopEntry (item : Item) (o : AddOpts) (e : ShopEntry) : ShopEntry :=
  { e with
    quantities := some (e.quantities.getD [] ++ [mkShopRec item o])
    checked := false }

/-- The new-entry arm of `addToShoppingList`. -/
def newShopEntry (item : Item) (o : AddOpts) : ShopEntry :=
  { itemId := some item.id
    name := item.name
    category := item.category
    unit :=
      if o.unitOv = [] then (if item.unit = [] then strOf "item" else item.unit)
      else o.unitOv
    url := getItemUrl item (strOf "Tesco")
    store :=
      match item.sources with
      | [] => strOf "Unknown"
      | s :: _ => if s.store = [] then strOf "Unknown" else s.store
    quantities := some [mkShopRec item o]
    checked := false }

/-- `addToShoppingList(item, options)` acting on `state.shopping`: mutate the
first entry matched by `shopMatch`, else push a new entry. -/
def addToShoppingList (item : Item) (o : AddOpts) : List ShopEntry → List ShopEntry
  | [] => [newShopEntry item o]
  | e :: rest =>
    if shopMatch item e then mergeShopEntry item o e :: rest
    else e :: addToShoppingList item o rest

/-- The destructured `itemData` argument of `addManualToShopping`, with the
defaults (`quantity = 1`, `unit = ''`, `category = 'Other|Other'`,
`store = ''`, `url = ''`) already applied by the destructuring. -/
structure ManualData where
  name : Str
  quantity : QtyVal
  unit : Str
  category : Str
  store : Str
  url : Str
deriving DecidableEq

/-- The merge identity of `addManualToShopping`:
`s.name.toLowerCase() === name.toLowerCase()`. -/
def manualMatch (name : Str) (s : ShopEntry) : Bool :=
  lowerStr s.name == lowerStr name

def mergeManual (d : ManualData) (e : ShopEntry) : ShopEntry :=
  { e with
    quantities :=
      some (e.quantities.getD [] ++ [{ num := d.quantity, unit := d.unit, srcTag := strOf "Manual" }])
    checked := false }

def newManualEntry (d : ManualData) : ShopEntry :=
  { itemId := none
    name := d.name
    category := d.category
    unit := d.unit
    url := d.url
    store := d.store
    quantities := some [{ num := d.quantity, unit := d.unit, srcTag := strOf "Manual" }]
    checked := false }

/-- `addManualToShopping(itemData)` acting on `state.shopping`. -/
def addManualToShopping (d : ManualData) : List ShopEntry → List ShopEntry
  | [] => [newManualEntry d]
  | e :: rest =>
    if manualMatch d.name e then mergeManual d e :: rest
    else e :: addManualToShopping d rest

def updateAt (i : ℕ) (f : α → α) : List α → List α
  | [] => []
  | x :: xs =>
    match i with
    | 0 => f x :: xs
    | i + 1 => x :: updateAt i f xs

/-- `toggleShoppingChecked(index)`: bounds-checked flip of `checked`. -/
def toggleShoppingChecked (i : ℕ) (sh : List ShopEntry) : List ShopEntry :=
  if i < sh.length then updateAt i (fun e => { e with checked := !e.checked }) sh else sh

/-- `(num || 1) + 1` on a JS number-or-string: a falsy value counts as 1; a
truthy string concatenates with `"1"`. -/
def incNum : QtyVal → QtyVal
  | .num q => .num ((if q = 0 then 1 else q) + 1)
  | .str s => if s = [] then .num 2 else .str (s ++ ['1'])

/-- The guard `qty.num > 1` (relational comparison coerces a string operand
with `Number`; `NaN` compares false). -/
def jsGT1 : QtyVal → Bool
  | .num q => decide (1 < q)
  | .str s =>
    match jsNumber s with
    | some v => decide (1 < v)
    | none => false

/-- `qty.num--`: coerces to a number and subtracts 1.  (Only reached under
the `jsGT1` guard, which rules out `NaN`.) -/
def decNum : QtyVal → QtyVal
  | .num q => .num (q - 1)
  | .str s => .num ((jsNumber s).getD 0 - 1)

/-- `incrementShoppingQty(index)` from shopping.js: bumps the first quantity
record, or seeds `[{num: 2, unit: item.unit || ''}]` when there are no
records (the seeded record has no `from` field, modelled `[]`). -/
def incrementShoppingQty (i : ℕ) (sh : List ShopEntry) : List ShopEntry :=
  match sh.get? i with
  | none => sh
  | some e =>
    match e.quantities with
    | some (q :: qs) =>
      sh.set i { e with quantities := some ({ q with num := incNum q.num } :: qs) }
    | _ => sh.set i { e with quantities := some [{ num := .num 2, unit := e.unit, srcTag := [] }] }

/-- `decrementShoppingQty(index)` from shopping.js: decrements the first
quantity record only when it is `> 1`. -/
def decrementShoppingQty (i : ℕ) (sh : List ShopEntry) : List ShopEntry :=
  match sh.get? i with
  | none => sh
  | some e =>
    match e.quantities with
    | some (q :: qs) =>
      if jsGT1 q.num then
        sh.set i { e with quantities := some ({ q with num := decNum q.num } :: qs) }
      else sh
    | _ => sh

/-! ## Item store: `itemsById` index, `addItem`, `findOrCreateItem`
(store.js, items.js) -/

/-- The `itemsById` plain object: insertion-ordered key-value entries. -/
abbrev IdxMap := List (Str × Item)

def lookupIdx (m : IdxMap) (k : Str) : Option Item :=
  (m.find? (fun p => p.1 == k)).map (·.2)

/-- Truthiness of `state.itemsById[k]`. -/
def idxHas (m : IdxMap) (k : Str) : Bool := (lookupIdx m k).isSome

/-- JS object property assignment: overwrite in place, else append. -/
def idxSet (m : IdxMap) (k : Str) (v : Item) : IdxMap :=
  if idxHas m k then m.map (fun p => if p.1 = k then (k, v) else p)
  else m ++ [(k, v)]

/-- `rebuildItemsIndex()` from store.js. -/
def rebuildItemsIndex (items : List Item) : IdxMap :=
  items.foldl (fun m it => idxSet m it.id it) []

/-- `getItem(itemId)` from store.js (`null` is `none`). -/
def getItem (m : IdxMap) (itemId : Str) : Option Item := lookupIdx m itemId

def isSlugChar (c : Char) : Bool :=
  ('a' ≤ c && c ≤ 'z') || ('0' ≤ c && c ≤ '9')

/-- `.replace(/[^a-z0-9]+/g, '-')`: each maximal run of non-slug characters
becomes a single `'-'`.  (`'-'` itself is not a slug character, so the head
of the collapsed tail is `'-'` exactly when the tail starts a run.) -/
def collapseRuns : Str → Str
  | [] => []
  | c :: rest =>
    if isSlugChar c then c :: collapseRuns rest
    else
      match collapseRuns rest with
      | d :: t => if d = '-' then d :: t else '-' :: d :: t
      | [] => ['-']

/-- `.replace(/^-|-$/g, '')`: one leading and one trailing dash removed
(after `collapseRuns`, dashes never repeat). -/
def stripEdgeDash (l : Str) : Str :=
  let l1 :=
    match l with
    | c :: t => if c = '-' then t else c :: t
    | [] => []
  match l1.getLast? with
  | some c => if c = '-' then l1.dropLast else l1
  | none => l1

/-- `slugify(name)` from utils.js. -/
def slugify (name : Str) : Str := stripEdgeDash (collapseRuns (lowerStr name))

/-- The slice of the global store touched by the items module:
`state.items` and `state.itemsById`. -/
structure ItemsState where
  items : List Item
  itemsById : IdxMap
deriving DecidableEq

/-- The candidate id `` `${id}-${counter}` `` of the collision loop. -/
def candId (base : Str) (k : ℕ) : Str := base ++ '-' :: natToDigits k

/-- The `while (state.itemsById[finalId])` loop, fuelled: `m.length + 1`
distinct candidates cannot all be keys of `m` (see `freshId_not_has`). -/
def freshIdAux (m : IdxMap) (base : Str) : ℕ → ℕ → Str
  | counter, 0 => candId base counter
  | counter, fuel + 1 =>
    if idxHas m (candId base counter) then freshIdAux m base (counter + 1) fuel
    else candId base counter

def freshId (m : IdxMap) (base : Str) : Str :=
  if idxHas m base then freshIdAux m base 1 (m.length + 1) else base

/-- The `itemData` argument of `addItem`; `[]` models an absent/empty
(falsy) field, `sources` absent models as `[]` (`|| []` is the identity). -/
structure ItemData where
  id : Str
  name : Str
  category : Str
  unit : Str
  sources : List Source
deriving DecidableEq

/-- `addItem(itemData)` from items.js: slug or supplied id, disambiguated by
numeric suffix against the index; pushes to `state.items` and writes the
index. -/
def addItem (d : ItemData) (s : ItemsState) : Item × ItemsState :=
  let base := if d.id = [] then slugify d.name else d.id
  let finalId := freshId s.itemsById base
  let it : Item :=
    { id := finalId
      name := d.name
      category := if d.category = [] then strOf "Other|Other" else d.category
      unit := if d.unit = [] then strOf "item" else d.unit
      sources := d.sources }
  (it, { items := s.items ++ [it], itemsById := idxSet s.itemsById finalId it })

/-- The `defaults` argument of `findOrCreateItem`. -/
structure ItemDefaults where
  category : Str
  unit : Str
  sources : List Source
deriving DecidableEq

/-- `findOrCreateItem(name, defaults)` from items.js: case-insensitive name
lookup over `state.items`; on miss, create through `addItem`. -/
def findOrCreateItem (name : Str) (dfl : ItemDefaults) (s : ItemsState) : Item × ItemsState :=
  match s.items.find? (fun i => lowerStr i.name == lowerStr name) with
  | some it => (it, s)
  | none =>
    addItem
      { id := []
        name := name
        category := if dfl.category = [] then strOf "Other|Other" else dfl.category
        unit := if dfl.unit = [] then strOf "item" else dfl.unit
        sources := dfl.sources } s

/-! ## Bundles: resolution and deletion (bundles.js) -/

structure BundleItem where
  itemId : Str
  quantity : ℚ
deriving DecidableEq

structure Bundle where
  id : Str
  name : Str
  category : Str
  items : List BundleItem
deriving DecidableEq

/-- One element of the resolver output `{item, quantity, itemId}`; `item` is
`none` before filtering when the reference dangles. -/
structure ResolvedItem where
  item : Option Item
  quantity : ℚ
  itemId : Str
deriving DecidableEq

/-- `getResolvedBundleItems(bundleId)` from bundles.js: map each reference
through `getItem` (with `bi.quantity || 1`), then filter out unresolved
entries.  Unknown bundle gives `[]`. -/
def getResolvedBundleItems (m : IdxMap) (bundles : List Bundle) (bundleId : Str) :
    List ResolvedItem :=
  match bundles.find? (fun b => b.id == bundleId) with
  | none => []
  | some bundle =>
    (bundle.items.map (fun bi =>
      ({ item := getItem m bi.itemId
         quantity := if bi.quantity = (0 : ℚ) then 1 else bi.quantity
         itemId := bi.itemId } : ResolvedItem))).filter (fun ri => ri.item.isSome)

/-- The slice of the global store touched by `deleteBundle` and the
selection counters: `state.bundles`, `state.selectedBundles`,
`state.selectedItems`, `state.expandedBundles`. -/
structure SelState where
  bundles : List Bundle
  selectedBundles : List Str
  selectedItems : List (Str × List Str)
  expandedBundles : List Str
deriving DecidableEq

/-- JS `Set.prototype.delete` on a distinct-member list. -/
def setDelete (x : Str) (l : List Str) : List Str :=
  l.filter (fun y => !(y == x))

/-- JS `Map.prototype.delete` on a distinct-key entry list. -/
def mapDelete (x : Str) (l : List (Str × List Str)) : List (Str × List Str) :=
  l.filter (fun p => !(p.1 == x))

/-- `findIndex`, as an `Option` (JS returns −1 when there is no match). -/
def findIdxOpt (p : α → Bool) : List α → Option ℕ
  | [] => none
  | x :: xs => if p x then some 0 else (findIdxOpt p xs).map (· + 1)

/-- `deleteBundle(bundleId)` from bundles.js: splice the bundle out and purge
the three UI-state containers; `false` when the id is unknown. -/
def deleteBundle (bundleId : Str) (s : SelState) : Bool × SelState :=
  match findIdxOpt (fun b => b.id == bundleId) s.bundles with
  | none => (false, s)
  | some i =>
    (true,
      { bundles := s.bundles.eraseIdx i
        selectedBundles := setDelete bundleId s.selectedBundles
        selectedItems := mapDelete bundleId s.selectedItems
        expandedBundles := setDelete bundleId s.expandedBundles })

/-- `getSelectedItemCount()` from bundles.js: the sum of the selection-set
sizes. -/
def getSelectedItemCount (s : SelState) : ℕ :=
  (s.selectedItems.map (fun p => p.2.length)).sum

/-! ## Weekly plan scheduler (weekly.js) -/

/-- An activity or chore (the fields the scheduler reads). -/
structure Entity where
  id : Str
  name : Str
deriving DecidableEq

/-- The `{id, name}` snapshot stored in a slot. -/
structure PlanRef where
  id : Str
  name : Str
deriving DecidableEq

/-- A slot value `state.weeklyPlan[type][key]`: missing/null, a legacy
scalar, or an array. -/
inductive SlotVal where
  | empty
  | single (r : PlanRef)
  | many (l : List PlanRef)
deriving DecidableEq

/-- The slice of the global store touched by the two slot-add operations. -/
structure PlanState where
  bundles : List Bundle
  activities : List Entity
  chores : List Entity
  plan : Str → Str → SlotVal

def planSet (p : Str → Str → SlotVal) (ty k : Str) (v : SlotVal) : Str → Str → SlotVal :=
  fun t d => if t = ty ∧ d = k then v else p t d

def mkRefB (b : Bundle) : PlanRef := { id := b.id, name := b.name }

def mkRefE (e : Entity) : PlanRef := { id := e.id, name := e.name }

/-- `addPlanItem(type, day, bundleId)` from weekly.js: no-op on a falsy or
unknown bundle id; replaces a falsy slot by `[]` and wraps a legacy scalar
into a one-element array; pushes `{id, name}` unless the id is present. -/
def addPlanItem (ty day bundleId : Str) (s : PlanState) : PlanState :=
  if bundleId = [] then s
  else
    match s.bundles.find? (fun b => b.id == bundleId) with
    | none => s
    | some bundle =>
      let cur :=
        match s.plan ty day with
        | .empty => []
        | .single r => [r]
        | .many l => l
      let nxt := if cur.any (fun r => r.id == bundleId) then cur else cur ++ [mkRefB bundle]
      { s with plan := planSet s.plan ty day (.many nxt) }

/-- `addPlanItemSlot(type, key, itemId)` from weekly.js: no-op on a falsy or
unknown entity id; replaces a falsy slot by `[]`; on an array slot, pushes
`{id, name}` unless the id is present.  A legacy scalar slot is NOT
normalized here: `.find` on a non-array throws — modelled as `none`. -/
def addPlanItemSlot (ty key itemId : Str) (s : PlanState) : Option PlanState :=
  if itemId = [] then some s
  else
    let items := if ty = strOf "activities" then s.activities else s.chores
    match items.find? (fun i => i.id == itemId) with
    | none => some s
    | some it =>
      match s.plan ty key with
      | .single _ => none
      | .empty => some { s with plan := planSet s.plan ty key (.many [mkRefE it]) }
      | .many l =>
        let nxt := if l.any (fun r => r.id == itemId) then l else l ++ [mkRefE it]
        some { s with plan := planSet s.plan ty key (.many nxt) }

/-! ## Lemmas: decimal numerals -/

theorem charVal_digitChar {d : ℕ} (h : d < 10) : charVal (digitChar d) = d := by
  interval_cases d <;> decide

theorem isDigit_digitChar (d : ℕ) : (digitChar d).isDigit = true := by
  unfold digitChar
  split <;> decide

theorem digitsToNat_append (l : Str) (c : Char) :
    digitsToNat (l ++ [c]) = 10 * digitsToNat l + charVal c := by
  simp [digitsToNat, List.foldl_append]

theorem digitsToNat_natToDigitsAux {fuel n : ℕ} (h : n < fuel) :
    digitsToNat (natToDigitsAux n fuel) = n := by
  induction fuel generalizing n with
  | zero => omega
  | succ fuel ih =>
    rw [natToDigitsAux]
    split
    · next h10 => simp [digitsToNat, charVal_digitChar h10]
    · next h10 =>
      rw [digitsToNat_append, ih (by omega), charVal_digitChar (Nat.mod_lt _ (by omega))]
      omega

theorem digitsToNat_natToDigits (n : ℕ) : digitsToNat (natToDigits n) = n :=
  digitsToNat_natToDigitsAux (by omega)

theorem natToDigits_inj {m n : ℕ} (h : natToDigits m = natToDigits n) : m = n := by
  have hm := digitsToNat_natToDigits m
  rw [h, digitsToNat_natToDigits] at hm
  omega

theorem mem_natToDigitsAux_isDigit {fuel n : ℕ} {c : Char}
    (h : c ∈ natToDigitsAux n fuel) : c.isDigit = true := by
  induction fuel generalizing n with
  | zero => simp [natToDigitsAux] at h
  | succ fuel ih =>
    rw [natToDigitsAux] at h
    split at h
    · simp at h
      simp [h, isDigit_digitChar]
    · rcases List.mem_append.mp h with h1 | h1
      · exact ih h1
      · simp at h1
        simp [h1, isDigit_digitChar]

theorem mem_natToDigits_isDigit {n : ℕ} {c : Char} (h : c ∈ natToDigits n) :
    c.isDigit = true := mem_natToDigitsAux_isDigit h

theorem natToDigits_ne_nil (n : ℕ) : natToDigits n ≠ [] := by
  intro h
  have := digitsToNat_natToDigits n
  rw [h] at this
  revert this
  unfold natToDigits natToDigitsAux at h
  split at h
  · simp at h
  · simp at h

/-! ## Lemmas: character classes -/

theorem ne_char_of_isDigit {c d : Char} (h : c.isDigit = true) (hd : d.isDigit = false) :
    c ≠ d := by
  rintro rfl
  rw [h] at hd
  exact Bool.noConfusion hd

theorem not_isWS_of_isDigit {c : Char} (h : c.isDigit = true) : isWS c = false := by
  unfold isWS
  have h1 : c ≠ ' ' := ne_char_of_isDigit h (by decide)
  have h2 : c ≠ '\t' := ne_char_of_isDigit h (by decide)
  have h3 : c ≠ '\n' := ne_char_of_isDigit h (by decide)
  have h4 : c ≠ '\r' := ne_char_of_isDigit h (by decide)
  simp [h1, h2, h3, h4]

/-! ## Lemmas: takeWhile / dropWhile / trim / split -/

theorem takeWhile_all {p : Char → Bool} {l : Str} (h : ∀ c ∈ l, p c = true) :
    l.takeWhile p = l := by
  induction l with
  | nil => rfl
  | cons a l ih => simp_all [List.takeWhile_cons]

theorem dropWhile_all {p : Char → Bool} {l : Str} (h : ∀ c ∈ l, p c = true) :
    l.dropWhile p = [] := by
  induction l with
  | nil => rfl
  | cons a l ih => simp_all [List.dropWhile_cons]

theorem takeWhile_cons_of_neg {p : Char → Bool} {c : Char} {l : Str} (h : p c = false) :
    (c :: l).takeWhile p = [] := by
  simp [List.takeWhile_cons, h]

theorem dropWhile_cons_of_neg {p : Char → Bool} {c : Char} {l : Str} (h : p c = false) :
    (c :: l).dropWhile p = c :: l := by
  simp [List.dropWhile_cons, h]

theorem takeWhile_append_all {p : Char → Bool} {l1 l2 : Str} (h : ∀ c ∈ l1, p c = true) :
    (l1 ++ l2).takeWhile p = l1 ++ l2.takeWhile p := by
  induction l1 with
  | nil => simp
  | cons a l ih => simp_all [List.takeWhile_cons]

theorem dropWhile_append_all {p : Char → Bool} {l1 l2 : Str} (h : ∀ c ∈ l1, p c = true) :
    (l1 ++ l2).dropWhile p = l2.dropWhile p := by
  induction l1 with
  | nil => simp
  | cons a l ih => simp_all [List.dropWhile_cons]

theorem trimStr_eq_self {l : Str}
    (h1 : ∀ c, l.head? = some c → isWS c = false)
    (h2 : ∀ c, l.getLast? = some c → isWS c = false) :
    trimStr l = l := by
  unfold trimStr
  cases l with
  | nil => rfl
  | cons a t =>
    rw [dropWhile_cons_of_neg (h1 a rfl)]
    obtain ⟨d, rest, hrev⟩ : ∃ d rest, (a :: t).reverse = d :: rest :=
      List.exists_cons_of_ne_nil (by simp)
    have hd : isWS d = false := by
      apply h2
      rw [← List.head?_reverse, hrev]
      rfl
    rw [hrev, dropWhile_cons_of_neg hd, ← hrev, List.reverse_reverse]

theorem trimStr_of_digits {l : Str} (h : ∀ c ∈ l, c.isDigit = true) : trimStr l = l := by
  apply trimStr_eq_self
  · intro c hc
    exact not_isWS_of_isDigit (h c (by cases l with
      | nil => simp at hc
      | cons a t => simp at hc; simp [hc]))
  · intro c hc
    exact not_isWS_of_isDigit (h c (List.mem_of_mem_getLast? hc))

theorem splitOnChar_of_not_mem {sep : Char} {l : Str} (h : sep ∉ l) :
    splitOnChar sep l = [l] := by
  induction l with
  | nil => rfl
  | cons c t ih =>
    rw [splitOnChar]
    have hc : ¬ c = sep := by rintro rfl; exact h (List.mem_cons_self c t)
    rw [if_neg hc, ih (fun hm => h (List.mem_cons_of_mem c hm))]

theorem splitOnChar_append {sep : Char} {l1 l2 : Str} (h : sep ∉ l1) :
    splitOnChar sep (l1 ++ sep :: l2) = l1 :: splitOnChar sep l2 := by
  induction l1 with
  | nil => simp [splitOnChar]
  | cons c t ih =>
    have hc : ¬ c = sep := by rintro rfl; exact h (List.mem_cons_self c t)
    rw [List.cons_append, splitOnChar, if_neg hc,
      ih (fun hm => h (List.mem_cons_of_mem c hm))]

theorem contains_of_mem {l : Str} {c : Char} (h : c ∈ l) : l.contains c = true := by
  rw [List.contains_iff_exists_mem_beq]
  exact ⟨c, h, by simp⟩

/-! ## Lemmas: the numeric built-ins on digit strings -/

theorem parseSign_cons_digit {c : Char} {r : Str} (h : c.isDigit = true) :
    parseSign (c :: r) = (false, c :: r) := by
  have h1 : ¬ c = '-' := ne_char_of_isDigit h (by decide)
  have h2 : ¬ c = '+' := ne_char_of_isDigit h (by decide)
  simp [parseSign, h1, h2]

theorem parseExp_nil (v : ℚ) : parseExp v [] = (v, []) := rfl

theorem parseExp_cons_other {v : ℚ} {c : Char} {r : Str} (h1 : ¬ c = 'e') (h2 : ¬ c = 'E') :
    parseExp v (c :: r) = (v, c :: r) := by
  simp [parseExp, h1, h2]

theorem parseDec_digits {d : Str} (h : IsDigits d) :
    parseDec d = some ((digitsToNat d : ℚ), []) := by
  obtain ⟨hne, hdig⟩ := h
  simp only [parseDec, takeWhile_all hdig, dropWhile_all hdig]
  simp [hne, parseExp]

theorem parseSignedDec_digits {d : Str} (h : IsDigits d) :
    parseSignedDec d = some ((digitsToNat d : ℚ), []) := by
  obtain ⟨hne, hdig⟩ := h
  obtain ⟨c, r, rfl⟩ := List.exists_cons_of_ne_nil hne
  rw [parseSignedDec, parseSign_cons_digit (hdig c (by simp))]
  rw [show ((false, c :: r) : Bool × Str).2 = c :: r from rfl]
  rw [parseDec_digits ⟨by simp, hdig⟩]
  simp

theorem jsNumber_digits {d : Str} (h : IsDigits d) :
    jsNumber d = some ((digitsToNat d : ℚ)) := by
  have hne := h.1
  rw [jsNumber, trimStr_of_digits h.2, if_neg hne, parseSignedDec_digits h]

theorem parseDec_digits_then {d : Str} {c : Char} {r : Str} (h : IsDigits d)
    (hc : c.isDigit = false) (hdot : ¬ c = '.') :
    parseDec (d ++ c :: r) = some (parseExp ((digitsToNat d : ℚ)) (c :: r)) := by
  obtain ⟨hne, hdig⟩ := h
  simp only [parseDec, takeWhile_append_all hdig, dropWhile_append_all hdig,
    takeWhile_cons_of_neg hc, dropWhile_cons_of_neg hc, List.append_nil]
  simp [hne, hdot]

theorem jsNumber_digits_space_digits {w a : Str} (hw : IsDigits w) (ha : IsDigits a) :
    jsNumber (w ++ ' ' :: a) = none := by
  obtain ⟨c, r, hcw⟩ := List.exists_cons_of_ne_nil hw.1
  obtain ⟨d, t, hda⟩ := List.exists_cons_of_ne_nil (l := a.reverse) (by simpa using ha.1)
  have hdm : d ∈ a := by
    have : d ∈ a.reverse := by simp [hda]
    simpa using this
  have htrim : trimStr (w ++ ' ' :: a) = w ++ ' ' :: a := by
    apply trimStr_eq_self
    · intro x hx
      rw [hcw, List.cons_append, List.head?_cons, Option.some_inj] at hx
      subst hx
      exact not_isWS_of_isDigit (hw.2 c (by simp [hcw]))
    · intro x hx
      have hgl : (w ++ ' ' :: a).getLast? = some d := by
        rw [List.getLast?_eq_head?_reverse]
        simp [List.reverse_append, hda]
      rw [hgl, Option.some_inj] at hx
      subst hx
      exact not_isWS_of_isDigit (ha.2 d hdm)
  rw [jsNumber, htrim, if_neg (by simp)]
  have hsign : parseSign (w ++ ' ' :: a) = (false, w ++ ' ' :: a) := by
    rw [hcw, List.cons_append, parseSign_cons_digit (hw.2 c (by simp [hcw]))]
  rw [parseSignedDec, hsign]
  rw [show ((false, w ++ ' ' :: a) : Bool × Str).2 = w ++ ' ' :: a from rfl]
  rw [parseDec_digits_then ⟨hw.1, hw.2⟩ (by decide) (by decide)]
  rw [parseExp_cons_other (by decide) (by decide)]
  simp

/-! ## Lemmas: `parseQuantity` on fractions and mixed fractions -/

theorem trimStr_sandwich {x m y : Str} (hx : IsDigits x) (hy : IsDigits y) :
    trimStr (x ++ m ++ y) = x ++ m ++ y := by
  obtain ⟨c, r, hcx⟩ := List.exists_cons_of_ne_nil hx.1
  obtain ⟨d, t, hdy⟩ := List.exists_cons_of_ne_nil (l := y.reverse) (by simpa using hy.1)
  have hdm : d ∈ y := by
    have : d ∈ y.reverse := by simp [hdy]
    simpa using this
  apply trimStr_eq_self
  · intro z hz
    rw [hcx] at hz
    simp only [List.cons_append, List.append_assoc, List.head?_cons, Option.some_inj] at hz
    subst hz
    exact not_isWS_of_isDigit (hx.2 c (by simp [hcx]))
  · intro z hz
    have hgl : (x ++ m ++ y).getLast? = some d := by
      rw [List.getLast?_eq_head?_reverse]
      simp [List.reverse_append, hdy]
    rw [hgl, Option.some_inj] at hz
    subst hz
    exact not_isWS_of_isDigit (hy.2 d hdm)

theorem parseQuantity_frac {a b : Str} (ha : IsDigits a) (hb : IsDigits b)
    (hb0 : digitsToNat b ≠ 0) :
    parseQuantity (.str (a ++ '/' :: b)) = (digitsToNat a : ℚ) / (digitsToNat b : ℚ) := by
  have hne : a ++ '/' :: b ≠ [] := by simp
  have htrim : trimStr (a ++ '/' :: b) = a ++ '/' :: b := by
    have := trimStr_sandwich (m := ['/']) ha hb
    simpa using this
  have hnamem : '/' ∉ a := fun hm => absurd (ha.2 '/' hm) (by decide)
  have hnbmem : '/' ∉ b := fun hm => absurd (hb.2 '/' hm) (by decide)
  have hsplit : splitOnChar '/' (a ++ '/' :: b) = [a, b] := by
    rw [splitOnChar_append hnamem, splitOnChar_of_not_mem hnbmem]
  have hfrac : fracBranch (a ++ '/' :: b) = some ((digitsToNat a : ℚ) / digitsToNat b) := by
    rw [fracBranch, if_pos (contains_of_mem (by simp)), hsplit]
    rw [show (([a, b] : List Str)) = a :: b :: [] from rfl]
    simp only [jsNumber_digits ha, jsNumber_digits hb]
    rw [if_pos (by exact_mod_cast hb0)]
  simp only [parseQuantity, if_neg hne, htrim, hfrac]

theorem matchMixed_eq {w a b : Str} (hw : IsDigits w) (ha : IsDigits a) (hb : IsDigits b) :
    matchMixed (w ++ ' ' :: (a ++ '/' :: b)) = some (w, a, b) := by
  obtain ⟨c, r, hca⟩ := List.exists_cons_of_ne_nil ha.1
  have hcd : Char.isDigit c = true := ha.2 c (by simp [hca])
  have h1 : (w ++ ' ' :: (a ++ '/' :: b)).takeWhile Char.isDigit = w := by
    rw [takeWhile_append_all hw.2, takeWhile_cons_of_neg (by decide), List.append_nil]
  have h2 : (w ++ ' ' :: (a ++ '/' :: b)).dropWhile Char.isDigit = ' ' :: (a ++ '/' :: b) := by
    rw [dropWhile_append_all hw.2, dropWhile_cons_of_neg (by decide)]
  have h3 : (' ' :: (a ++ '/' :: b)).takeWhile isWS = ' ' :: ((a ++ '/' :: b).takeWhile isWS) := by
    simp [List.takeWhile_cons, show isWS ' ' = true from by decide]
  have h4 : (' ' :: (a ++ '/' :: b)).dropWhile isWS = a ++ '/' :: b := by
    have hrest : (a ++ '/' :: b).dropWhile isWS = a ++ '/' :: b := by
      rw [hca, List.cons_append, dropWhile_cons_of_neg (not_isWS_of_isDigit hcd)]
    simp [List.dropWhile_cons, hrest, show isWS ' ' = true from by decide]
  have h5 : (a ++ '/' :: b).takeWhile Char.isDigit = a := by
    rw [takeWhile_append_all ha.2, takeWhile_cons_of_neg (by decide), List.append_nil]
  have h6 : (a ++ '/' :: b).dropWhile Char.isDigit = '/' :: b := by
    rw [dropWhile_append_all ha.2, dropWhile_cons_of_neg (by decide)]
  have h7 : b.takeWhile Char.isDigit = b := takeWhile_all hb.2
  have h8 : b.dropWhile Char.isDigit = [] := dropWhile_all hb.2
  simp only [matchMixed, h1, h2, h3, h4, h5, h6, h7, h8]
  simp [hw.1, ha.1, hb.1]

theorem parseQuantity_mixed {w a b : Str} (hw : IsDigits w) (ha : IsDigits a)
    (hb : IsDigits b) (hb0 : digitsToNat b ≠ 0) :
    parseQuantity (.str (w ++ ' ' :: (a ++ '/' :: b))) =
      (digitsToNat w : ℚ) + (digitsToNat a : ℚ) / (digitsToNat b : ℚ) := by
  have hne : w ++ ' ' :: (a ++ '/' :: b) ≠ [] := by simp
  have htrim : trimStr (w ++ ' ' :: (a ++ '/' :: b)) = w ++ ' ' :: (a ++ '/' :: b) := by
    have := trimStr_sandwich (x := w) (m := ' ' :: a ++ ['/']) (y := b) hw hb
    simpa using this
  have hnmem : '/' ∉ w ++ ' ' :: a := by
    intro hm
    rcases List.mem_append.mp hm with h | h
    · exact absurd (hw.2 '/' h) (by decide)
    · rcases List.mem_cons.mp h with h | h
      · exact absurd h (by decide)
      · exact absurd (ha.2 '/' h) (by decide)
  have hfrac : fracBranch (w ++ ' ' :: (a ++ '/' :: b)) = none := by
    have hshape : w ++ ' ' :: (a ++ '/' :: b) = (w ++ ' ' :: a) ++ '/' :: b := by simp
    rw [fracBranch, if_pos (contains_of_mem (by simp)), hshape, splitOnChar_append hnmem]
    have hnb : '/' ∉ b := fun hm => absurd (hb.2 '/' hm) (by decide)
    rw [splitOnChar_of_not_mem hnb]
    simp only [jsNumber_digits_space_digits hw ha]
  have hmix : mixedBranch (w ++ ' ' :: (a ++ '/' :: b)) =
      some ((digitsToNat w : ℚ) + (digitsToNat a : ℚ) / (digitsToNat b : ℚ)) := by
    rw [mixedBranch, matchMixed_eq hw ha hb]
    simp [hb0]
  simp only [parseQuantity, if_neg hne, htrim, hfrac, hmix]

/-- C2: `parseQuantity` is total (a Lean function), passes numbers through,
returns `a/b` exactly for every pure fraction of decimal numerals with a
nonzero denominator, `w + a/b` for every mixed fraction, falls back to the
floating-point parse (e.g. `"2.5"`), and yields 1 on empty or unparseable
input (`""`, `"abc"`); in particular `"1/2"` gives 1/2 and `"1 1/2"` gives
3/2. -/
theorem parseQuantity_spec :
    (∀ q : ℚ, parseQuantity (.num q) = q) ∧
    (∀ a b : Str, IsDigits a → IsDigits b → digitsToNat b ≠ 0 →
      parseQuantity (.str (a ++ '/' :: b)) = (digitsToNat a : ℚ) / (digitsToNat b : ℚ)) ∧
    (∀ w a b : Str, IsDigits w → IsDigits a → IsDigits b → digitsToNat b ≠ 0 →
      parseQuantity (.str (w ++ ' ' :: (a ++ '/' :: b))) =
        (digitsToNat w : ℚ) + (digitsToNat a : ℚ) / (digitsToNat b : ℚ)) ∧
    parseQuantity (.str []) = 1 ∧
    parseQuantity (.str (strOf "abc")) = 1 ∧
    parseQuantity (.str (strOf "2.5")) = 5 / 2 ∧
    parseQuantity (.str (strOf "1/2")) = 1 / 2 ∧
    parseQuantity (.str (strOf "1 1/2")) = 3 / 2 := by
  refine ⟨fun q => rfl, fun a b ha hb hb0 => parseQuantity_frac ha hb hb0,
    fun w a b hw ha hb hb0 => parseQuantity_mixed hw ha hb hb0, rfl, by decide, ?_, ?_, ?_⟩
  · have hne : strOf "2.5" ≠ [] := by decide
    have htrim : trimStr (strOf "2.5") = strOf "2.5" := by decide
    have h1 : fracBranch (strOf "2.5") = none := by decide
    have h2 : mixedBranch (strOf "2.5") = none := by decide
    simp only [parseQuantity, if_neg hne, htrim, h1, h2]
    rw [show parseFloatJS (strOf "2.5") =
      some ((digitsToNat ['2'] : ℚ) + (digitsToNat ['5'] : ℚ) / 10 ^ (['5'] : Str).length)
      from rfl]
    norm_num [show digitsToNat ['2'] = 2 from rfl, show digitsToNat ['5'] = 5 from rfl]
  · have h := parseQuantity_frac (a := ['1']) (b := ['2']) (by decide) (by decide) (by decide)
    rw [show strOf "1/2" = ['1'] ++ '/' :: ['2'] from rfl, h]
    norm_num [show digitsToNat ['1'] = 1 from rfl, show digitsToNat ['2'] = 2 from rfl]
  · have h := parseQuantity_mixed (w := ['1']) (a := ['1']) (b := ['2'])
      (by decide) (by decide) (by decide) (by decide)
    rw [show strOf "1 1/2" = ['1'] ++ ' ' :: (['1'] ++ '/' :: ['2']) from rfl, h]
    norm_num [show digitsToNat ['1'] = 1 from rfl, show digitsToNat ['2'] = 2 from rfl]

/-- Witness for C2 at concrete numerals: the fraction `"12/4"` and the mixed
fraction `"2 1/4"`. -/
theorem parseQuantity_spec_witness :
    parseQuantity (.str (['1', '2'] ++ '/' :: ['4'])) =
      (digitsToNat ['1', '2'] : ℚ) / (digitsToNat ['4'] : ℚ) ∧
    parseQuantity (.str (['2'] ++ ' ' :: (['1'] ++ '/' :: ['4']))) =
      (digitsToNat ['2'] : ℚ) + (digitsToNat ['1'] : ℚ) / (digitsToNat ['4'] : ℚ) :=
  ⟨parseQuantity_spec.2.1 ['1', '2'] ['4'] (by decide) (by decide) (by decide),
   parseQuantity_spec.2.2.1 ['2'] ['1'] ['4'] (by decide) (by decide) (by decide) (by decide)⟩

/-! ## Lemmas: `combineQuantities` grouping -/

/-- Specification-side: insert a key if unseen (first-seen key order). -/
def seenInsert (ks : List Str) (u : Str) : List Str :=
  if u ∈ ks then ks else ks ++ [u]

/-- Specification-side: the sum of the parsed quantities of the records with
a given unit. -/
def sumFor (qs : List QRec) (u : Str) : ℚ :=
  ((qs.filter (fun q => q.unit == u)).map (fun q => parseQuantity q.num)).sum

/-- Specification-side: lookup of a unit's accumulated total. -/
def lookupG (gs : List (Str × ℚ)) (u : Str) : Option ℚ :=
  (gs.find? (fun g => g.1 == u)).map (·.2)

theorem addToGroups_keys (gs : List (Str × ℚ)) (u : Str) (v : ℚ) :
    (addToGroups gs u v).map (·.1) = seenInsert (gs.map (·.1)) u := by
  induction gs with
  | nil => simp [addToGroups, seenInsert]
  | cons g rest ih =>
    obtain ⟨a, t⟩ := g
    by_cases h : a = u
    · subst h
      simp [addToGroups, seenInsert]
    · rw [show addToGroups ((a, t) :: rest) u v = (a, t) :: addToGroups rest u v by
        simp [addToGroups, h]]
      simp only [List.map_cons, ih, seenInsert]
      by_cases hm : u ∈ rest.map (·.1)
      · simp [hm, h, Ne.symm h]
      · simp [hm, h, Ne.symm h]

theorem groupByUnit_keys_aux (qs : List QRec) (gs : List (Str × ℚ)) :
    ((qs.foldl (fun gs q => addToGroups gs q.unit (parseQuantity q.num)) gs).map (·.1)) =
      qs.foldl (fun ks q => seenInsert ks q.unit) (gs.map (·.1)) := by
  induction qs generalizing gs with
  | nil => rfl
  | cons q qs ih =>
    simp only [List.foldl_cons]
    rw [ih, addToGroups_keys]

theorem groupByUnit_keys (qs : List QRec) :
    (groupByUnit qs).map (·.1) = qs.foldl (fun ks q => seenInsert ks q.unit) [] :=
  groupByUnit_keys_aux qs []

theorem lookupG_cons_eq {a : Str} {t : ℚ} {r : List (Str × ℚ)} :
    lookupG ((a, t) :: r) a = some t := by
  simp [lookupG]

theorem lookupG_cons_ne {a u : Str} {t : ℚ} {r : List (Str × ℚ)} (h : ¬ a = u) :
    lookupG ((a, t) :: r) u = lookupG r u := by
  unfold lookupG
  rw [List.find?_cons_of_neg _ (by simp [h])]

theorem addToGroups_cons_eq {u : Str} {t v : ℚ} {r : List (Str × ℚ)} :
    addToGroups ((u, t) :: r) u v = (u, t + v) :: r := by
  simp [addToGroups]

theorem addToGroups_cons_ne {a u : Str} {t v : ℚ} {r : List (Str × ℚ)} (h : ¬ a = u) :
    addToGroups ((a, t) :: r) u v = (a, t) :: addToGroups r u v := by
  simp [addToGroups, h]

theorem addToGroups_lookup (gs : List (Str × ℚ)) (u : Str) (v : ℚ) (u2 : Str) :
    lookupG (addToGroups gs u v) u2 =
      if u2 = u then some ((lookupG gs u).getD 0 + v) else lookupG gs u2 := by
  induction gs with
  | nil =>
    by_cases h : u2 = u
    · subst h
      simp [addToGroups, lookupG]
    · have h2 : ¬ u = u2 := fun hh => h hh.symm
      simp [addToGroups, lookupG, h, h2]
  | cons g rest ih =>
    obtain ⟨a, t⟩ := g
    by_cases ha : a = u
    · subst ha
      rw [addToGroups_cons_eq]
      by_cases h : u2 = a
      · subst h
        rw [if_pos rfl, lookupG_cons_eq, lookupG_cons_eq]
        simp
      · have h2 : ¬ a = u2 := fun hh => h hh.symm
        rw [if_neg h, lookupG_cons_ne h2, lookupG_cons_ne h2]
    · rw [addToGroups_cons_ne ha]
      by_cases h : u2 = a
      · subst h
        rw [if_neg ha, lookupG_cons_eq, lookupG_cons_eq]
      · have h2 : ¬ a = u2 := fun hh => h hh.symm
        rw [show lookupG ((a, t) :: addToGroups rest u v) u2 =
            lookupG (addToGroups rest u v) u2 from lookupG_cons_ne h2, ih]
        by_cases hu : u2 = u
        · subst hu
          rw [if_pos rfl, if_pos rfl,
            show lookupG ((a, t) :: rest) u2 = lookupG rest u2 from lookupG_cons_ne h2]
        · rw [if_neg hu, if_neg hu,
            show lookupG ((a, t) :: rest) u2 = lookupG rest u2 from lookupG_cons_ne h2]

theorem sumFor_cons (q : QRec) (qs : List QRec) (u : Str) :
    sumFor (q :: qs) u =
      if q.unit = u then parseQuantity q.num + sumFor qs u else sumFor qs u := by
  by_cases h : q.unit = u
  · simp [sumFor, List.filter_cons, h]
  · simp [sumFor, List.filter_cons, h]

theorem sumFor_eq_zero {qs : List QRec} {u : Str} (h : u ∉ qs.map (·.unit)) :
    sumFor qs u = 0 := by
  induction qs with
  | nil => simp [sumFor]
  | cons q qs ih =>
    rw [sumFor_cons]
    simp only [List.map_cons, List.mem_cons] at h
    push_neg at h
    rw [if_neg (fun hh => h.1 hh.symm), ih h.2]

theorem groupByUnit_lookup_aux (qs : List QRec) (gs : List (Str × ℚ)) (u : Str) :
    lookupG (qs.foldl (fun gs q => addToGroups gs q.unit (parseQuantity q.num)) gs) u =
      if u ∈ qs.map (·.unit) then some ((lookupG gs u).getD 0 + sumFor qs u)
      else lookupG gs u := by
  induction qs generalizing gs with
  | nil => simp [sumFor]
  | cons q qs ih =>
    simp only [List.foldl_cons]
    rw [ih]
    by_cases hu : u = q.unit
    · have hmem : u ∈ (q :: qs).map (·.unit) := by simp [hu]
      rw [if_pos hmem, sumFor_cons, if_pos hu.symm]
      by_cases hq : u ∈ qs.map (·.unit)
      · rw [if_pos hq, addToGroups_lookup, if_pos hu]
        simp only [Option.getD_some]
        rw [hu, add_assoc]
      · rw [if_neg hq, addToGroups_lookup, if_pos hu, sumFor_eq_zero hq, hu]
        simp
    · have hne : ¬ q.unit = u := fun hh => hu hh.symm
      have hmem : u ∈ (q :: qs).map (·.unit) ↔ u ∈ qs.map (·.unit) := by
        simp [List.mem_cons, hne, fun hh => hu hh]
      by_cases hq : u ∈ qs.map (·.unit)
      · rw [if_pos hq, addToGroups_lookup, if_neg hu, if_pos (hmem.mpr hq),
          sumFor_cons, if_neg hne]
      · rw [if_neg hq, addToGroups_lookup, if_neg hu,
          if_neg (fun hh => hq (hmem.mp hh))]

theorem groupByUnit_lookup {qs : List QRec} {u : Str} (h : u ∈ qs.map (·.unit)) :
    lookupG (groupByUnit qs) u = some (sumFor qs u) := by
  have := groupByUnit_lookup_aux qs [] u
  rw [if_pos h] at this
  simpa [lookupG] using this

theorem natToDigits_no_dot (n : ℕ) : '.' ∉ natToDigits n :=
  fun h => absurd (mem_natToDigits_isDigit h) (by decide)

theorem formatTotal_int {t : ℚ} (h : t.den = 1) : '.' ∉ formatTotal t := by
  rw [formatTotal, if_pos h, intToStr]
  split
  · intro hm
    rcases List.mem_cons.mp hm with hm | hm
    · exact absurd hm (by decide)
    · exact natToDigits_no_dot _ hm
  · exact natToDigits_no_dot _

theorem formatTotal_frac {t : ℚ} (h : t.den ≠ 1) :
    ∃ pre d, formatTotal t = pre ++ ['.', d] ∧ d.isDigit = true ∧ '.' ∉ pre := by
  rw [formatTotal, if_neg h, toFixed1]
  split
  · refine ⟨'-' :: natToDigits ((⌊-t * 10 + 1 / 2⌋).toNat / 10),
      digitChar ((⌊-t * 10 + 1 / 2⌋).toNat % 10), ?_, isDigit_digitChar _, ?_⟩
    · simp [toFixed1abs]
    · intro hm
      rcases List.mem_cons.mp hm with hm | hm
      · exact absurd hm (by decide)
      · exact natToDigits_no_dot _ hm
  · exact ⟨natToDigits ((⌊t * 10 + 1 / 2⌋).toNat / 10),
      digitChar ((⌊t * 10 + 1 / 2⌋).toNat % 10), rfl, isDigit_digitChar _,
      natToDigits_no_dot _⟩

/-- C3: `combineQuantities` groups records by unit (the empty string is a
valid group key), sums `parseQuantity` of each record's `num` per group in
first-seen-unit (insertion) order — not sorted —, formats a whole-number
total as an integer string and any other total with exactly one decimal
digit, joins groups with `" + "`, and returns `"1"` on the empty list; in
particular `combineQuantities([{num:1,unit:"kg"},{num:0.5,unit:"kg"}], true)`
is `"1.5 kg"`. -/
theorem combineQuantities_spec :
    combineQuantities [] true = strOf "1" ∧
    combineQuantities [] false = strOf "1" ∧
    combineQuantities
      [⟨.num 1, strOf "kg", []⟩, ⟨.num (1 / 2), strOf "kg", []⟩] true = strOf "1.5 kg" ∧
    combineQuantities
      [⟨.num 2, strOf "z", []⟩, ⟨.num 1, strOf "a", []⟩] true = strOf "2 z + 1 a" ∧
    (∀ qs : List QRec,
      (groupByUnit qs).map (·.1) = qs.foldl (fun ks q => seenInsert ks q.unit) []) ∧
    (∀ (qs : List QRec) (u : Str), u ∈ qs.map (·.unit) →
      lookupG (groupByUnit qs) u = some (sumFor qs u)) ∧
    (∀ t : ℚ, t.den = 1 → '.' ∉ formatTotal t) ∧
    (∀ t : ℚ, t.den ≠ 1 →
      ∃ pre d, formatTotal t = pre ++ ['.', d] ∧ d.isDigit = true ∧ '.' ∉ pre) := by
  refine ⟨rfl, rfl, ?_, by decide, groupByUnit_keys, fun qs u h => groupByUnit_lookup h,
    fun t h => formatTotal_int h, fun t h => formatTotal_frac h⟩
  have hg : groupByUnit [⟨.num 1, strOf "kg", []⟩, ⟨.num (1 / 2), strOf "kg", []⟩]
      = [(strOf "kg", (1 : ℚ) + 1 / 2)] := by
    simp [groupByUnit, addToGroups, parseQuantity]
  have hval : (1 : ℚ) + 1 / 2 = 3 / 2 := by norm_num
  have hden2 : ((3 : ℚ) / 2).den = 2 := by norm_num [Rat.den]
  have hfloor : (⌊(3 : ℚ) / 2 * 10 + 1 / 2⌋).toNat = 15 := by
    rw [show ⌊(3 : ℚ) / 2 * 10 + 1 / 2⌋ = 15 from by norm_num]
    rfl
  have hfmt : formatTotal ((3 : ℚ) / 2) = strOf "1.5" := by
    rw [formatTotal, if_neg (by rw [hden2]; omega), toFixed1, if_neg (by norm_num)]
    simp only [toFixed1abs, hfloor]
    decide
  rw [combineQuantities, if_neg (by simp), hg, hval]
  simp only [List.map_cons, List.map_nil]
  rw [show formatGroup true (strOf "kg") ((3 : ℚ) / 2) =
    formatTotal ((3 : ℚ) / 2) ++ ' ' :: strOf "kg" from rfl]
  rw [hfmt]
  decide

/-- Witness for C3: the grouping and formatting clauses applied at concrete
inputs (a one-record list; the integral total 2; the non-integral total 1/2
given by the reduced fraction ⟨1, 2⟩). -/
theorem combineQuantities_spec_witness :
    (strOf "kg" ∈ ([⟨.num 2, strOf "kg", []⟩] : List QRec).map (·.unit)) ∧
    lookupG (groupByUnit [⟨.num 2, strOf "kg", []⟩]) (strOf "kg") =
      some (sumFor [⟨.num 2, strOf "kg", []⟩] (strOf "kg")) ∧
    '.' ∉ formatTotal 2 ∧
    (∃ pre d, formatTotal (⟨1, 2, by decide, by decide⟩ : ℚ) = pre ++ ['.', d] ∧
      d.isDigit = true ∧ '.' ∉ pre) :=
  ⟨by decide, combineQuantities_spec.2.2.2.2.2.1 _ _ (by decide),
   combineQuantities_spec.2.2.2.2.2.2.1 2 (by decide),
   combineQuantities_spec.2.2.2.2.2.2.2 _ (by decide)⟩

/-! ## Lemmas: shopping-list adds -/

theorem addToShoppingList_no_match {item : Item} {o : AddOpts} {sh : List ShopEntry}
    (h : ∀ e ∈ sh, shopMatch item e = false) :
    addToShoppingList item o sh = sh ++ [newShopEntry item o] := by
  induction sh with
  | nil => rfl
  | cons e rest ih =>
    rw [addToShoppingList, if_neg (by simp [h e (by simp)]),
      ih (fun x hx => h x (by simp [hx]))]
    rfl

theorem addToShoppingList_prefix_match {item : Item} {o : AddOpts}
    {pre : List ShopEntry} {E : ShopEntry} {rest : List ShopEntry}
    (hpre : ∀ e ∈ pre, shopMatch item e = false) (hE : shopMatch item E = true) :
    addToShoppingList item o (pre ++ E :: rest) = pre ++ mergeShopEntry item o E :: rest := by
  induction pre with
  | nil => simp [addToShoppingList, hE]
  | cons e p ih =>
    rw [List.cons_append, addToShoppingList, if_neg (by simp [hpre e (by simp)]),
      ih (fun x hx => hpre x (by simp [hx])), List.cons_append]

theorem addManualToShopping_no_match {d : ManualData} {sh : List ShopEntry}
    (h : ∀ e ∈ sh, manualMatch d.name e = false) :
    addManualToShopping d sh = sh ++ [newManualEntry d] := by
  induction sh with
  | nil => rfl
  | cons e rest ih =>
    rw [addManualToShopping, if_neg (by simp [h e (by simp)]),
      ih (fun x hx => h x (by simp [hx]))]
    rfl

theorem addManualToShopping_prefix_match {d : ManualData}
    {pre : List ShopEntry} {E : ShopEntry} {rest : List ShopEntry}
    (hpre : ∀ e ∈ pre, manualMatch d.name e = false) (hE : manualMatch d.name E = true) :
    addManualToShopping d (pre ++ E :: rest) = pre ++ mergeManual d E :: rest := by
  induction pre with
  | nil => simp [addManualToShopping, hE]
  | cons e p ih =>
    rw [List.cons_append, addManualToShopping, if_neg (by simp [hpre e (by simp)]),
      ih (fun x hx => hpre x (by simp [hx])), List.cons_append]

theorem updateAt_append_length (l : List α) (x : α) (f : α → α) :
    updateAt l.length f (l ++ [x]) = l ++ [f x] := by
  induction l with
  | nil => rfl
  | cons a t ih => simpa [updateAt] using ih

theorem toggle_at_end (sh : List ShopEntry) (E : ShopEntry) :
    toggleShoppingChecked sh.length (sh ++ [E]) = sh ++ [{ E with checked := !E.checked }] := by
  rw [toggleShoppingChecked, if_pos (by simp), updateAt_append_length]

theorem filter_append_single {α : Type} {p : α → Bool} {pre : List α} {E : α}
    (hpre : ∀ e ∈ pre, p e = false) (hE : p E = true) :
    (pre ++ [E]).filter p = [E] := by
  rw [List.filter_append, List.filter_eq_nil.mpr (fun a ha => by simp [hpre a ha]),
    List.nil_append, List.filter_cons, if_pos (by simp [hE])]
  rfl

/-- C1: adding the same item to the shopping list twice merges rather than
duplicates.  Starting from any list with no entry matching the item, after a
first add, a toggle of the new entry's `checked` to true, and a second add:
the list has exactly one entry matching the item (by `itemId` for
`addToShoppingList`; by case-insensitive name — the two calls may differ in
case — for `addManualToShopping`), that entry carries the two quantity
records of the two adds, and its `checked` is false although it was true
before the second add. -/
theorem shopping_merge_law :
    (∀ (sh : List ShopEntry) (item : Item) (o1 o2 : AddOpts),
      (∀ e ∈ sh, shopMatch item e = false) →
      (toggleShoppingChecked sh.length (addToShoppingList item o1 sh)).get? sh.length =
          some { newShopEntry item o1 with checked := true } ∧
      addToShoppingList item o2
          (toggleShoppingChecked sh.length (addToShoppingList item o1 sh)) =
        sh ++ [{ newShopEntry item o1 with
                  quantities := some [mkShopRec item o1, mkShopRec item o2]
                  checked := false }] ∧
      ((addToShoppingList item o2
          (toggleShoppingChecked sh.length (addToShoppingList item o1 sh))).filter
            (fun e => shopMatch item e)).length = 1) ∧
    (∀ (sh : List ShopEntry) (d1 d2 : ManualData),
      lowerStr d1.name = lowerStr d2.name →
      (∀ e ∈ sh, manualMatch d1.name e = false) →
      (toggleShoppingChecked sh.length (addManualToShopping d1 sh)).get? sh.length =
          some { newManualEntry d1 with checked := true } ∧
      addManualToShopping d2
          (toggleShoppingChecked sh.length (addManualToShopping d1 sh)) =
        sh ++ [{ newManualEntry d1 with
                  quantities := some [⟨d1.quantity, d1.unit, strOf "Manual"⟩,
                                      ⟨d2.quantity, d2.unit, strOf "Manual"⟩]
                  checked := false }] ∧
      ((addManualToShopping d2
          (toggleShoppingChecked sh.length (addManualToShopping d1 sh))).filter
            (fun e => manualMatch d1.name e)).length = 1) := by
  constructor
  · intro sh item o1 o2 hno
    have h1 : addToShoppingList item o1 sh = sh ++ [newShopEntry item o1] :=
      addToShoppingList_no_match hno
    have hnew : (newShopEntry item o1).checked = false := rfl
    have h2 : toggleShoppingChecked sh.length (addToShoppingList item o1 sh) =
        sh ++ [{ newShopEntry item o1 with checked := true }] := by
      rw [h1, toggle_at_end]
      rfl
    have hmE : shopMatch item { newShopEntry item o1 with checked := true } = true := by
      simp [shopMatch, newShopEntry]
    have h3 : addToShoppingList item o2
        (sh ++ [{ newShopEntry item o1 with checked := true }]) =
        sh ++ [mergeShopEntry item o2 { newShopEntry item o1 with checked := true }] :=
      addToShoppingList_prefix_match hno hmE
    have hmerge : mergeShopEntry item o2 { newShopEntry item o1 with checked := true } =
        { newShopEntry item o1 with
          quantities := some [mkShopRec item o1, mkShopRec item o2]
          checked := false } := by
      simp [mergeShopEntry, newShopEntry]
    refine ⟨?_, ?_, ?_⟩
    · rw [h2, List.get?_concat_length]
    · rw [h2, h3, hmerge]
    · rw [h2, h3, hmerge, filter_append_single hno (by simp [shopMatch, newShopEntry])]
      rfl
  · intro sh d1 d2 hlow hno
    have hno2 : ∀ e ∈ sh, manualMatch d2.name e = false := by
      intro e he
      have := hno e he
      simpa [manualMatch, ← hlow] using this
    have h1 : addManualToShopping d1 sh = sh ++ [newManualEntry d1] :=
      addManualToShopping_no_match hno
    have h2 : toggleShoppingChecked sh.length (addManualToShopping d1 sh) =
        sh ++ [{ newManualEntry d1 with checked := true }] := by
      rw [h1, toggle_at_end]
      rfl
    have hmE : manualMatch d2.name { newManualEntry d1 with checked := true } = true := by
      simp [manualMatch, newManualEntry, hlow]
    have h3 : addManualToShopping d2
        (sh ++ [{ newManualEntry d1 with checked := true }]) =
        sh ++ [mergeManual d2 { newManualEntry d1 with checked := true }] :=
      addManualToShopping_prefix_match hno2 hmE
    have hmerge : mergeManual d2 { newManualEntry d1 with checked := true } =
        { newManualEntry d1 with
          quantities := some [⟨d1.quantity, d1.unit, strOf "Manual"⟩,
                              ⟨d2.quantity, d2.unit, strOf "Manual"⟩]
          checked := false } := by
      simp [mergeManual, newManualEntry]
    refine ⟨?_, ?_, ?_⟩
    · rw [h2, List.get?_concat_length]
    · rw [h2, h3, hmerge]
    · rw [h2, h3, hmerge, filter_append_single hno (by simp [manualMatch, newManualEntry])]
      rfl

/-- Witness for C1: both merge paths at a concrete item ("Milk", the manual
names differing in case). -/
theorem shopping_merge_law_witness :
    (((addToShoppingList ⟨strOf "milk", strOf "Milk", strOf "Fridge|Dairy", strOf "pint", []⟩
        ⟨.num 1, strOf "B", []⟩
        (toggleShoppingChecked 0
          (addToShoppingList ⟨strOf "milk", strOf "Milk", strOf "Fridge|Dairy", strOf "pint", []⟩
            ⟨.num 2, strOf "A", []⟩ []))).filter
        (fun e => shopMatch ⟨strOf "milk", strOf "Milk", strOf "Fridge|Dairy", strOf "pint", []⟩ e)).length = 1) ∧
    (((addManualToShopping ⟨strOf "MILK", .num 1, [], strOf "Other|Other", [], []⟩
        (toggleShoppingChecked 0
          (addManualToShopping ⟨strOf "milk", .num 2, [], strOf "Other|Other", [], []⟩ []))).filter
        (fun e => manualMatch (strOf "milk") e)).length = 1) :=
  ⟨(shopping_merge_law.1 [] ⟨strOf "milk", strOf "Milk", strOf "Fridge|Dairy", strOf "pint", []⟩
      ⟨.num 2, strOf "A", []⟩ ⟨.num 1, strOf "B", []⟩ (by intro e he; simp at he)).2.2,
   (shopping_merge_law.2 [] ⟨strOf "milk", .num 2, [], strOf "Other|Other", [], []⟩
      ⟨strOf "MILK", .num 1, [], strOf "Other|Other", [], []⟩ (by decide)
      (by intro e he; simp at he)).2.2⟩

/-! ## Lemmas: quantity increment / decrement -/

theorem decNum_pos {n : QtyVal} (h : jsGT1 n = true) :
    ∃ w : ℚ, decNum n = .num w ∧ 0 < w := by
  cases n with
  | num q =>
    simp only [jsGT1, decide_eq_true_eq] at h
    exact ⟨q - 1, rfl, by linarith⟩
  | str s =>
    simp only [jsGT1] at h
    cases hj : jsNumber s with
    | none => rw [hj] at h; simp at h
    | some v =>
      rw [hj] at h
      simp only [decide_eq_true_eq] at h
      refine ⟨v - 1, ?_, by linarith⟩
      simp [decNum, hj]

/-- C7: `decrementShoppingQty` leaves a first quantity of 1 unchanged and,
whenever it changes the list at all, replaces only the first quantity record
of the indexed entry by a strictly positive numeric value (so the quantity
never reaches 0 or below); `incrementShoppingQty` touches only the first
quantity record, and on an entry with no quantity records it seeds a single
record with value 2 (and the entry's unit). -/
theorem shopping_qty_spec :
    (∀ (sh : List ShopEntry) (i : ℕ) (e : ShopEntry) (q : QRec) (qs : List QRec),
      sh.get? i = some e → e.quantities = some (q :: qs) → q.num = .num 1 →
      decrementShoppingQty i sh = sh) ∧
    (∀ (sh : List ShopEntry) (i : ℕ),
      decrementShoppingQty i sh = sh ∨
      ∃ e q qs w, sh.get? i = some e ∧ e.quantities = some (q :: qs) ∧ (0 : ℚ) < w ∧
        decrementShoppingQty i sh =
          sh.set i { e with quantities := some ({ q with num := .num w } :: qs) }) ∧
    (∀ (sh : List ShopEntry) (i : ℕ) (e : ShopEntry) (q : QRec) (qs : List QRec),
      sh.get? i = some e → e.quantities = some (q :: qs) →
      incrementShoppingQty i sh =
        sh.set i { e with quantities := some ({ q with num := incNum q.num } :: qs) }) ∧
    (∀ (sh : List ShopEntry) (i : ℕ) (e : ShopEntry),
      sh.get? i = some e → (e.quantities = none ∨ e.quantities = some []) →
      incrementShoppingQty i sh =
        sh.set i { e with quantities := some [{ num := .num 2, unit := e.unit, srcTag := [] }] }) := by
  refine ⟨?_, ?_, ?_, ?_⟩
  · intro sh i e q qs hget hq hnum
    rw [decrementShoppingQty, hget]
    simp only [hq]
    rw [if_neg (by simp [hnum, jsGT1])]
  · intro sh i
    cases hget : sh.get? i with
    | none =>
      left
      rw [decrementShoppingQty, hget]
    | some e =>
      cases hq : e.quantities with
      | none =>
        left
        rw [decrementShoppingQty, hget]
        simp only [hq]
      | some l =>
        cases l with
        | nil =>
          left
          rw [decrementShoppingQty, hget]
          simp only [hq]
        | cons q qs =>
          by_cases hg : jsGT1 q.num = true
          · right
            obtain ⟨w, hw, hwpos⟩ := decNum_pos hg
            refine ⟨e, q, qs, w, rfl, hq, hwpos, ?_⟩
            rw [decrementShoppingQty, hget]
            simp only [hq]
            rw [if_pos hg, hw]
          · left
            rw [decrementShoppingQty, hget]
            simp only [hq]
            rw [if_neg hg]
  · intro sh i e q qs hget hq
    rw [incrementShoppingQty, hget]
    simp only [hq]
  · intro sh i e hget hq
    rw [incrementShoppingQty, hget]
    rcases hq with hq | hq <;> simp only [hq]

/-- Witness for C7: a one-entry list with first quantity 1 is unchanged by
decrement; increment on an entry without records seeds value 2. -/
theorem shopping_qty_spec_witness :
    decrementShoppingQty 0
      [⟨none, strOf "Milk", [], [], [], [], some [⟨.num 1, [], []⟩], false⟩] =
      [⟨none, strOf "Milk", [], [], [], [], some [⟨.num 1, [], []⟩], false⟩] ∧
    incrementShoppingQty 0 [⟨none, strOf "Milk", [], strOf "pint", [], [], none, false⟩] =
      [⟨none, strOf "Milk", [], strOf "pint", [], [],
        some [⟨.num 2, strOf "pint", []⟩], false⟩].set 0
        ⟨none, strOf "Milk", [], strOf "pint", [], [],
          some [⟨.num 2, strOf "pint", []⟩], false⟩ :=
  ⟨shopping_qty_spec.1 [⟨none, strOf "Milk", [], [], [], [], some [⟨.num 1, [], []⟩], false⟩] 0
      ⟨none, strOf "Milk", [], [], [], [], some [⟨.num 1, [], []⟩], false⟩
      ⟨.num 1, [], []⟩ [] (by decide) (by decide) (by decide),
   by
    have h := shopping_qty_spec.2.2.2
      [⟨none, strOf "Milk", [], strOf "pint", [], [], none, false⟩] 0
      ⟨none, strOf "Milk", [], strOf "pint", [], [], none, false⟩ (by decide) (Or.inl (by decide))
    exact h⟩

/-! ## Lemmas: merge frame (C10) -/

/-- First match of a predicate, with its position. -/
def firstMatch (p : α → Bool) : List α → Option (ℕ × α)
  | [] => none
  | x :: xs =>
    if p x then some (0, x) else (firstMatch p xs).map (fun q => (q.1 + 1, q.2))

theorem addToShoppingList_merge_at {item : Item} {o : AddOpts} {sh : List ShopEntry}
    {i : ℕ} {e : ShopEntry}
    (h : firstMatch (fun x => shopMatch item x) sh = some (i, e)) :
    addToShoppingList item o sh = sh.set i (mergeShopEntry item o e) := by
  induction sh generalizing i with
  | nil => simp [firstMatch] at h
  | cons x rest ih =>
    rw [firstMatch] at h
    by_cases hx : shopMatch item x = true
    · rw [if_pos (by simp [hx])] at h
      obtain ⟨hi, he⟩ : 0 = i ∧ x = e := by
        have := Option.some_inj.mp h
        exact ⟨congrArg Prod.fst this, congrArg Prod.snd this⟩
      subst hi
      subst he
      rw [addToShoppingList, if_pos hx]
      rfl
    · rw [if_neg (by simp [hx])] at h
      obtain ⟨⟨j, E⟩, hj, hmap⟩ := Option.map_eq_some'.mp h
      obtain ⟨hi, he⟩ : j + 1 = i ∧ E = e := by
        exact ⟨congrArg Prod.fst hmap, congrArg Prod.snd hmap⟩
      subst hi
      subst he
      rw [addToShoppingList, if_neg hx, ih hj]
      rfl

/-- C10: when `addToShoppingList` merges into an existing entry (the first
match), the result only replaces that entry; the merged entry keeps its
`itemId`, `name`, `category`, `unit`, `url` and `store`, and only gains a
quantity record and `checked := false`; an explicit unit override lands only
in the appended record, never in the entry's `unit` field. -/
theorem shopping_merge_frame :
    ∀ (sh : List ShopEntry) (item : Item) (o : AddOpts) (i : ℕ) (e : ShopEntry),
      firstMatch (fun x => shopMatch item x) sh = some (i, e) →
      addToShoppingList item o sh = sh.set i (mergeShopEntry item o e) ∧
      (mergeShopEntry item o e).itemId = e.itemId ∧
      (mergeShopEntry item o e).name = e.name ∧
      (mergeShopEntry item o e).category = e.category ∧
      (mergeShopEntry item o e).unit = e.unit ∧
      (mergeShopEntry item o e).url = e.url ∧
      (mergeShopEntry item o e).store = e.store ∧
      (mergeShopEntry item o e).checked = false ∧
      (mergeShopEntry item o e).quantities =
        some (e.quantities.getD [] ++ [mkShopRec item o]) ∧
      (mkShopRec item o).unit = (if o.unitOv = [] then item.unit else o.unitOv) :=
  fun sh item o i e h =>
    ⟨addToShoppingList_merge_at h, rfl, rfl, rfl, rfl, rfl, rfl, rfl, rfl, rfl⟩

/-- Witness for C10: merging a second "Milk" add with a unit override into an
existing entry at index 0 (the override "l" lands in the record; the entry's
unit stays "pint"). -/
theorem shopping_merge_frame_witness :
    addToShoppingList ⟨strOf "milk", strOf "Milk", [], strOf "pint", []⟩
        ⟨.num 1, [], strOf "l"⟩
        [⟨some (strOf "milk"), strOf "Milk", [], strOf "pint", [], [],
          some [⟨.num 1, strOf "pint", []⟩], true⟩] =
      [⟨some (strOf "milk"), strOf "Milk", [], strOf "pint", [], [],
        some [⟨.num 1, strOf "pint", []⟩], true⟩].set 0
        (mergeShopEntry ⟨strOf "milk", strOf "Milk", [], strOf "pint", []⟩
          ⟨.num 1, [], strOf "l"⟩
          ⟨some (strOf "milk"), strOf "Milk", [], strOf "pint", [], [],
            some [⟨.num 1, strOf "pint", []⟩], true⟩) ∧
    (mergeShopEntry ⟨strOf "milk", strOf "Milk", [], strOf "pint", []⟩
        ⟨.num 1, [], strOf "l"⟩
        ⟨some (strOf "milk"), strOf "Milk", [], strOf "pint", [], [],
          some [⟨.num 1, strOf "pint", []⟩], true⟩).unit =
      (⟨some (strOf "milk"), strOf "Milk", [], strOf "pint", [], [],
        some [⟨.num 1, strOf "pint", []⟩], true⟩ : ShopEntry).unit := by
  have h := shopping_merge_frame
    [⟨some (strOf "milk"), strOf "Milk", [], strOf "pint", [], [],
      some [⟨.num 1, strOf "pint", []⟩], true⟩]
    ⟨strOf "milk", strOf "Milk", [], strOf "pint", []⟩ ⟨.num 1, [], strOf "l"⟩ 0
    ⟨some (strOf "milk"), strOf "Milk", [], strOf "pint", [], [],
      some [⟨.num 1, strOf "pint", []⟩], true⟩ (by decide)
  exact ⟨h.1, h.2.2.2.2.1⟩

/-! ## Lemmas: bundle resolution (C6) -/

theorem resolved_map_filter (m : IdxMap) (l : List BundleItem) :
    ((l.map (fun bi =>
        ({ item := getItem m bi.itemId
           quantity := if bi.quantity = (0 : ℚ) then 1 else bi.quantity
           itemId := bi.itemId } : ResolvedItem))).filter (fun ri => ri.item.isSome)) =
      l.filterMap (fun bi =>
        (getItem m bi.itemId).map (fun it =>
          ({ item := some it
             quantity := if bi.quantity = (0 : ℚ) then 1 else bi.quantity
             itemId := bi.itemId } : ResolvedItem))) := by
  induction l with
  | nil => rfl
  | cons bi rest ih =>
    cases hg : getItem m bi.itemId with
    | none => simp [List.filter_cons, List.filterMap_cons, hg, ih]
    | some it => simp [List.filter_cons, List.filterMap_cons, hg, ih]

theorem resolved_partition (m : IdxMap) (l : List BundleItem) :
    ((l.map (fun bi =>
        ({ item := getItem m bi.itemId
           quantity := if bi.quantity = (0 : ℚ) then 1 else bi.quantity
           itemId := bi.itemId } : ResolvedItem))).filter (fun ri => ri.item.isSome)).length +
      (l.filter (fun bi => (getItem m bi.itemId).isNone)).length = l.length := by
  induction l with
  | nil => rfl
  | cons bi rest ih =>
    cases hg : getItem m bi.itemId with
    | none =>
      simp only [List.map_cons, List.filter_cons, hg]
      simp only [Option.isSome_none, Option.isNone_none]
      simp only [Bool.false_eq_true, if_false, if_true, List.length_cons]
      omega
    | some it =>
      simp only [List.map_cons, List.filter_cons, hg]
      simp only [Option.isSome_some, Option.isNone_some]
      simpa [Nat.succ_add] using ih

/-- C6: resolving a bundle never fails: for a bundle found by id, the result
is exactly the `{item, quantity, itemId}` triples of the resolvable
references, in the bundle's item order (a `filterMap` over the references),
and its length is the number of references minus the number of dangling
ones. -/
theorem getResolvedBundleItems_spec :
    ∀ (m : IdxMap) (bundles : List Bundle) (bid : Str) (bundle : Bundle),
      bundles.find? (fun b => b.id == bid) = some bundle →
      getResolvedBundleItems m bundles bid =
        bundle.items.filterMap (fun bi =>
          (getItem m bi.itemId).map (fun it =>
            ({ item := some it
               quantity := if bi.quantity = (0 : ℚ) then 1 else bi.quantity
               itemId := bi.itemId } : ResolvedItem))) ∧
      (getResolvedBundleItems m bundles bid).length =
        bundle.items.length -
          (bundle.items.filter (fun bi => (getItem m bi.itemId).isNone)).length := by
  intro m bundles bid bundle hfind
  have hres : getResolvedBundleItems m bundles bid =
      (bundle.items.map (fun bi =>
        ({ item := getItem m bi.itemId
           quantity := if bi.quantity = (0 : ℚ) then 1 else bi.quantity
           itemId := bi.itemId } : ResolvedItem))).filter (fun ri => ri.item.isSome) := by
    rw [getResolvedBundleItems, hfind]
  constructor
  · rw [hres, resolved_map_filter]
  · rw [hres]
    have := resolved_partition m bundle.items
    omega

/-- Witness for C6: a bundle with one resolvable and one dangling reference
resolves to a single triple (length 2 − 1). -/
theorem getResolvedBundleItems_spec_witness :
    getResolvedBundleItems
        [(strOf "milk", ⟨strOf "milk", strOf "Milk", [], strOf "pint", []⟩)]
        [⟨strOf "b1", strOf "Breakfast", strOf "breakfast",
          [⟨strOf "milk", 2⟩, ⟨strOf "gone", 1⟩]⟩]
        (strOf "b1") =
      (([⟨strOf "milk", 2⟩, ⟨strOf "gone", 1⟩] : List BundleItem).filterMap (fun bi =>
        (getItem [(strOf "milk", ⟨strOf "milk", strOf "Milk", [], strOf "pint", []⟩)]
            bi.itemId).map (fun it =>
          ({ item := some it
             quantity := if bi.quantity = (0 : ℚ) then 1 else bi.quantity
             itemId := bi.itemId } : ResolvedItem)))) ∧
    (getResolvedBundleItems
        [(strOf "milk", ⟨strOf "milk", strOf "Milk", [], strOf "pint", []⟩)]
        [⟨strOf "b1", strOf "Breakfast", strOf "breakfast",
          [⟨strOf "milk", 2⟩, ⟨strOf "gone", 1⟩]⟩]
        (strOf "b1")).length =
      2 - (([⟨strOf "milk", 2⟩, ⟨strOf "gone", 1⟩] : List BundleItem).filter
        (fun bi => (getItem [(strOf "milk", ⟨strOf "milk", strOf "Milk", [], strOf "pint", []⟩)]
          bi.itemId).isNone)).length :=
  getResolvedBundleItems_spec
    [(strOf "milk", ⟨strOf "milk", strOf "Milk", [], strOf "pint", []⟩)]
    [⟨strOf "b1", strOf "Breakfast", strOf "breakfast",
      [⟨strOf "milk", 2⟩, ⟨strOf "gone", 1⟩]⟩]
    (strOf "b1")
    ⟨strOf "b1", strOf "Breakfast", strOf "breakfast",
      [⟨strOf "milk", 2⟩, ⟨strOf "gone", 1⟩]⟩
    (by decide)

/-! ## Lemmas: bundle deletion cascade (C8) -/

theorem findIdxOpt_isSome_of_mem {bid : Str} {l : List Bundle} (h : bid ∈ l.map (·.id)) :
    ∃ i, findIdxOpt (fun b => b.id == bid) l = some i := by
  induction l with
  | nil => simp at h
  | cons b rest ih =>
    rw [findIdxOpt]
    by_cases hb : (b.id == bid) = true
    · exact ⟨0, by rw [if_pos hb]⟩
    · simp only [List.map_cons, List.mem_cons] at h
      rcases h with h | h
      · exact absurd (by simp [h]) hb
      · obtain ⟨j, hj⟩ := ih h
        refine ⟨j + 1, ?_⟩
        rw [if_neg hb, hj]
        rfl

theorem findIdxOpt_erase_spec {bid : Str} {l : List Bundle} {i : ℕ}
    (hnd : (l.map (·.id)).Nodup) (h : findIdxOpt (fun b => b.id == bid) l = some i) :
    bid ∉ (l.eraseIdx i).map (·.id) ∧ (l.eraseIdx i).length + 1 = l.length := by
  induction l generalizing i with
  | nil => simp [findIdxOpt] at h
  | cons b rest ih =>
    rw [findIdxOpt] at h
    by_cases hb : (b.id == bid) = true
    · rw [if_pos hb] at h
      have hi : i = 0 := by
        have := Option.some_inj.mp h
        omega
      subst hi
      have hid : b.id = bid := by simpa using hb
      simp only [List.eraseIdx_cons_zero]
      constructor
      · intro hmem
        rw [← hid] at hmem
        simp only [List.map_cons, List.nodup_cons] at hnd
        exact hnd.1 hmem
      · simp
    · rw [if_neg hb] at h
      obtain ⟨j, hj, rfl⟩ : ∃ j, findIdxOpt (fun b => b.id == bid) rest = some j ∧ j + 1 = i := by
        cases hr : findIdxOpt (fun b => b.id == bid) rest with
        | none => rw [hr] at h; simp at h
        | some j =>
          rw [hr] at h
          simp only [Option.map_some'] at h
          exact ⟨j, rfl, Option.some_inj.mp h⟩
      simp only [List.map_cons, List.nodup_cons] at hnd
      obtain ⟨hin, hlen⟩ := ih hnd.2 hj
      simp only [List.eraseIdx_cons_succ, List.map_cons, List.mem_cons]
      constructor
      · rintro (hmem | hmem)
        · exact hb (by simp [hmem])
        · exact hin hmem
      · simp [← hlen]

/-- C8: deleting a bundle whose id is present (ids being unique) reports
success, removes it from the bundles collection, purges every
selection-state entry keyed by it (`selectedBundles`, `selectedItems`,
`expandedBundles`), and the selected-item count afterwards is the sum of the
selection-set sizes over the entries of the remaining bundles only. -/
theorem deleteBundle_spec :
    ∀ (s : SelState) (bid : Str),
      (s.bundles.map (·.id)).Nodup → bid ∈ s.bundles.map (·.id) →
      (deleteBundle bid s).1 = true ∧
      bid ∉ ((deleteBundle bid s).2.bundles.map (·.id)) ∧
      (deleteBundle bid s).2.bundles.length + 1 = s.bundles.length ∧
      (∀ p ∈ (deleteBundle bid s).2.selectedItems, ¬ p.1 = bid) ∧
      bid ∉ (deleteBundle bid s).2.selectedBundles ∧
      bid ∉ (deleteBundle bid s).2.expandedBundles ∧
      getSelectedItemCount (deleteBundle bid s).2 =
        ((s.selectedItems.filter (fun p => !(p.1 == bid))).map (fun p => p.2.length)).sum := by
  intro s bid hnd hmem
  obtain ⟨i, hi⟩ := findIdxOpt_isSome_of_mem hmem
  obtain ⟨herase, hlen⟩ := findIdxOpt_erase_spec hnd hi
  have hdel : deleteBundle bid s =
      (true,
        { bundles := s.bundles.eraseIdx i
          selectedBundles := setDelete bid s.selectedBundles
          selectedItems := mapDelete bid s.selectedItems
          expandedBundles := setDelete bid s.expandedBundles }) := by
    rw [deleteBundle, hi]
  rw [hdel]
  refine ⟨rfl, herase, hlen, ?_, ?_, ?_, rfl⟩
  · intro p hp heq
    have := List.of_mem_filter hp
    simp [heq] at this
  · intro hmem2
    have := List.of_mem_filter hmem2
    simp at this
  · intro hmem2
    have := List.of_mem_filter hmem2
    simp at this

/-- Witness for C8: deleting bundle "b1" from a two-bundle state with
selection entries for both. -/
theorem deleteBundle_spec_witness :
    (deleteBundle (strOf "b1")
      ⟨[⟨strOf "b1", strOf "A", strOf "dinner", []⟩, ⟨strOf "b2", strOf "B", strOf "dinner", []⟩],
        [strOf "b1"],
        [(strOf "b1", [strOf "x", strOf "y"]), (strOf "b2", [strOf "z"])],
        [strOf "b1", strOf "b2"]⟩).1 = true ∧
    getSelectedItemCount (deleteBundle (strOf "b1")
      ⟨[⟨strOf "b1", strOf "A", strOf "dinner", []⟩, ⟨strOf "b2", strOf "B", strOf "dinner", []⟩],
        [strOf "b1"],
        [(strOf "b1", [strOf "x", strOf "y"]), (strOf "b2", [strOf "z"])],
        [strOf "b1", strOf "b2"]⟩).2 =
      ((([(strOf "b1", [strOf "x", strOf "y"]), (strOf "b2", [strOf "z"])] :
          List (Str × List Str)).filter (fun p => !(p.1 == strOf "b1"))).map
        (fun p => p.2.length)).sum := by
  have h := deleteBundle_spec
    ⟨[⟨strOf "b1", strOf "A", strOf "dinner", []⟩, ⟨strOf "b2", strOf "B", strOf "dinner", []⟩],
      [strOf "b1"],
      [(strOf "b1", [strOf "x", strOf "y"]), (strOf "b2", [strOf "z"])],
      [strOf "b1", strOf "b2"]⟩
    (strOf "b1") (by decide) (by decide)
  exact ⟨h.1, h.2.2.2.2.2.2⟩

/-! ## Lemmas: weekly-plan slot bookkeeping (C4) -/

/-- Specification-side: the ids stored in a slot value. -/
def slotIds : SlotVal → List Str
  | .empty => []
  | .single r => [r.id]
  | .many l => l.map (·.id)

/-- Specification-side: the list a slot value normalizes to. -/
def normSlot : SlotVal → List PlanRef
  | .empty => []
  | .single r => [r]
  | .many l => l

def countS (l : List Str) (x : Str) : ℕ := (l.filter (fun y => y == x)).length

/-- Number of references with a given id in a slot. -/
def slotCount (v : SlotVal) (x : Str) : ℕ := countS (slotIds v) x

theorem slotIds_normSlot (v : SlotVal) : slotIds v = (normSlot v).map (·.id) := by
  cases v <;> rfl

theorem planSet_same (p : Str → Str → SlotVal) (ty k : Str) (v : SlotVal) :
    planSet p ty k v ty k = v := by
  simp [planSet]

theorem planSet_other (p : Str → Str → SlotVal) (ty k : Str) (v : SlotVal) (t d : Str)
    (h : ¬ (t = ty ∧ d = k)) : planSet p ty k v t d = p t d := by
  simp [planSet, h]

theorem any_id_eq_mem (l : List PlanRef) (x : Str) :
    l.any (fun r => r.id == x) = true ↔ x ∈ l.map (·.id) := by
  rw [List.any_eq_true]
  constructor
  · rintro ⟨r, hr, hbeq⟩
    exact List.mem_map.mpr ⟨r, hr, by simpa using hbeq⟩
  · intro hm
    obtain ⟨r, hr, hid⟩ := List.mem_map.mp hm
    exact ⟨r, hr, by simp [hid]⟩

theorem countS_append (l1 l2 : List Str) (x : Str) :
    countS (l1 ++ l2) x = countS l1 x + countS l2 x := by
  simp [countS, List.filter_append]

theorem countS_zero_of_not_mem {l : List Str} {x : Str} (h : x ∉ l) : countS l x = 0 := by
  induction l with
  | nil => rfl
  | cons a t ih =>
    simp only [List.mem_cons] at h
    push_neg at h
    have hax : ¬ a = x := fun hh => h.1 hh.symm
    rw [countS, List.filter_cons, if_neg (by simp [hax])]
    exact ih h.2

theorem countS_one_of_nodup {l : List Str} {x : Str} (hnd : l.Nodup) (hm : x ∈ l) :
    countS l x = 1 := by
  induction l with
  | nil => simp at hm
  | cons a t ih =>
    simp only [List.nodup_cons] at hnd
    rcases List.mem_cons.mp hm with rfl | hm2
    · rw [countS, List.filter_cons, if_pos (by simp)]
      have : countS t x = 0 := countS_zero_of_not_mem hnd.1
      simpa [countS] using this
    · have hax : ¬ a = x := fun hh => hnd.1 (hh ▸ hm2)
      rw [countS, List.filter_cons, if_neg (by simp [hax])]
      exact ih hnd.2 hm2

theorem addPlanItem_found {s : PlanState} {ty day bid : Str} {bundle : Bundle}
    (hbid : bid ≠ []) (hfind : s.bundles.find? (fun b => b.id == bid) = some bundle) :
    addPlanItem ty day bid s =
      { s with plan := planSet s.plan ty day (.many
          (if (normSlot (s.plan ty day)).any (fun r => r.id == bid) then
            normSlot (s.plan ty day)
          else normSlot (s.plan ty day) ++ [mkRefB bundle])) } := by
  rw [addPlanItem, if_neg hbid, hfind]
  cases hv : s.plan ty day <;> simp [normSlot, hv]

theorem addPlanItemSlot_found_nonscalar {s : PlanState} {ty key iid : Str} {it : Entity}
    {l : List PlanRef} (hiid : iid ≠ [])
    (hfind : (if ty = strOf "activities" then s.activities else s.chores).find?
      (fun i => i.id == iid) = some it)
    (hslot : s.plan ty key = .empty ∨ s.plan ty key = .many l) :
    addPlanItemSlot ty key iid s =
      some { s with plan := planSet s.plan ty key (.many
          (if (normSlot (s.plan ty key)).any (fun r => r.id == iid) then
            normSlot (s.plan ty key)
          else normSlot (s.plan ty key) ++ [mkRefE it])) } := by
  rw [addPlanItemSlot, if_neg hiid]
  simp only [hfind]
  rcases hslot with hv | hv <;> simp [hv, normSlot]

theorem find?_bundle_id {l : List Bundle} {bid : Str} {bundle : Bundle}
    (h : l.find? (fun b => b.id == bid) = some bundle) : bundle.id = bid := by
  have := List.find?_some h
  simpa using this

theorem find?_entity_id {l : List Entity} {iid : Str} {it : Entity}
    (h : l.find? (fun i => i.id == iid) = some it) : it.id = iid := by
  have := List.find?_some h
  simpa using this

theorem normAdd_nodup_count (v : SlotVal) (x : Str) (ref : PlanRef) (href : ref.id = x)
    (hnd : (slotIds v).Nodup) :
    ((if (normSlot v).any (fun r => r.id == x) then normSlot v
      else normSlot v ++ [ref]).map (·.id)).Nodup ∧
    countS ((if (normSlot v).any (fun r => r.id == x) then normSlot v
      else normSlot v ++ [ref]).map (·.id)) x = 1 := by
  rw [slotIds_normSlot] at hnd
  by_cases hany : (normSlot v).any (fun r => r.id == x) = true
  · rw [if_pos hany]
    exact ⟨hnd, countS_one_of_nodup hnd ((any_id_eq_mem _ _).mp hany)⟩
  · rw [if_neg hany]
    have hnm : x ∉ (normSlot v).map (·.id) := fun hm => hany ((any_id_eq_mem _ _).mpr hm)
    have hids : (normSlot v ++ [ref]).map (·.id) = (normSlot v).map (·.id) ++ [x] := by
      simp [href]
    rw [hids]
    constructor
    · simp [List.nodup_append, hnd, hnm]
    · rw [countS_append, countS_zero_of_not_mem hnm]
      simp [countS]

theorem addPlanItem_twice {s : PlanState} {ty day bid : Str} {bundle : Bundle}
    (hbid : bid ≠ []) (hfind : s.bundles.find? (fun b => b.id == bid) = some bundle)
    (hnd : (slotIds (s.plan ty day)).Nodup) :
    slotCount ((addPlanItem ty day bid (addPlanItem ty day bid s)).plan ty day) bid = 1 := by
  obtain ⟨hnd1, hcount1⟩ :=
    normAdd_nodup_count (s.plan ty day) bid (mkRefB bundle) (find?_bundle_id hfind) hnd
  have hmem : bid ∈ (if (normSlot (s.plan ty day)).any (fun r => r.id == bid) then
      normSlot (s.plan ty day)
    else normSlot (s.plan ty day) ++ [mkRefB bundle]).map (·.id) := by
    by_cases hany : (normSlot (s.plan ty day)).any (fun r => r.id == bid) = true
    · rw [if_pos hany]
      exact (any_id_eq_mem _ _).mp hany
    · rw [if_neg hany]
      simp [mkRefB, find?_bundle_id hfind]
  rw [@addPlanItem_found s ty day bid bundle hbid hfind]
  generalize hnx : (if (normSlot (s.plan ty day)).any (fun r => r.id == bid) then
      normSlot (s.plan ty day)
    else normSlot (s.plan ty day) ++ [mkRefB bundle]) = nxt at hmem hcount1 ⊢
  generalize hs2 : ({ s with plan := planSet s.plan ty day (.many nxt) } : PlanState) = s2
  have hplan2 : s2.plan ty day = .many nxt := by
    rw [← hs2]
    exact planSet_same _ _ _ _
  have hfind2 : s2.bundles.find? (fun b => b.id == bid) = some bundle := by
    rw [show s2.bundles = s.bundles from by rw [← hs2], hfind]
  have hany2 : (normSlot (s2.plan ty day)).any (fun r => r.id == bid) = true := by
    rw [hplan2]
    simp only [normSlot]
    exact (any_id_eq_mem _ _).mpr hmem
  rw [@addPlanItem_found s2 ty day bid bundle hbid hfind2]
  simp only [planSet_same]
  rw [if_pos hany2, hplan2]
  simp only [normSlot, slotCount, slotIds]
  exact hcount1

theorem addPlanItemSlot_twice {s : PlanState} {ty key iid : Str} {it : Entity}
    {l : List PlanRef} (hiid : iid ≠ [])
    (hfind : (if ty = strOf "activities" then s.activities else s.chores).find?
      (fun i => i.id == iid) = some it)
    (hslot : s.plan ty key = .empty ∨ s.plan ty key = .many l)
    (hnd : (slotIds (s.plan ty key)).Nodup) :
    slotCount ((({ s with plan := planSet s.plan ty key (.many
        (if (normSlot (s.plan ty key)).any (fun r => r.id == iid) then
          normSlot (s.plan ty key)
        else normSlot (s.plan ty key) ++ [mkRefE it])) } : PlanState)).plan ty key) iid = 1 ∧
    addPlanItemSlot ty key iid ({ s with plan := planSet s.plan ty key (.many
        (if (normSlot (s.plan ty key)).any (fun r => r.id == iid) then
          normSlot (s.plan ty key)
        else normSlot (s.plan ty key) ++ [mkRefE it])) } : PlanState) =
      some ({ s with plan := planSet s.plan ty key (.many
        (if (normSlot (s.plan ty key)).any (fun r => r.id == iid) then
          normSlot (s.plan ty key)
        else normSlot (s.plan ty key) ++ [mkRefE it])) } : PlanState) := by
  obtain ⟨hnd1, hcount1⟩ :=
    normAdd_nodup_count (s.plan ty key) iid (mkRefE it) (find?_entity_id hfind) hnd
  have hmem : iid ∈ (if (normSlot (s.plan ty key)).any (fun r => r.id == iid) then
      normSlot (s.plan ty key)
    else normSlot (s.plan ty key) ++ [mkRefE it]).map (·.id) := by
    by_cases hany : (normSlot (s.plan ty key)).any (fun r => r.id == iid) = true
    · rw [if_pos hany]
      exact (any_id_eq_mem _ _).mp hany
    · rw [if_neg hany]
      simp [mkRefE, find?_entity_id hfind]
  generalize hnx : (if (normSlot (s.plan ty key)).any (fun r => r.id == iid) then
      normSlot (s.plan ty key)
    else normSlot (s.plan ty key) ++ [mkRefE it]) = nxt at hmem hcount1 ⊢
  generalize hs2 : ({ s with plan := planSet s.plan ty key (.many nxt) } : PlanState) = s2
  have hplan2 : s2.plan ty key = .many nxt := by
    rw [← hs2]
    exact planSet_same _ _ _ _
  have hact2 : s2.activities = s.activities := by rw [← hs2]
  have hcho2 : s2.chores = s.chores := by rw [← hs2]
  have hfind2 : (if ty = strOf "activities" then s2.activities else s2.chores).find?
      (fun i => i.id == iid) = some it := by
    rw [hact2, hcho2, hfind]
  have hany2 : (normSlot (s2.plan ty key)).any (fun r => r.id == iid) = true := by
    rw [hplan2]
    simp only [normSlot]
    exact (any_id_eq_mem _ _).mpr hmem
  constructor
  · rw [hplan2]
    simp only [slotCount, slotIds]
    exact hcount1
  · rw [addPlanItemSlot_found_nonscalar hiid hfind2 (Or.inr hplan2)]
    have hval : (if (normSlot (s2.plan ty key)).any (fun r => r.id == iid) then
        normSlot (s2.plan ty key)
      else normSlot (s2.plan ty key) ++ [mkRefE it]) = nxt := by
      rw [if_pos hany2, hplan2]
      rfl
    have hplanEq : planSet s2.plan ty key (.many nxt) = s2.plan := by
      funext t d
      by_cases h : t = ty ∧ d = key
      · obtain ⟨rfl, rfl⟩ := h
        rw [planSet_same, hplan2]
      · exact planSet_other _ _ _ _ _ _ h
    rw [hval, hplanEq]

/-- C4 (amended): the meal-slot add `addPlanItem` normalizes a legacy scalar
slot to a one-element list, appends the `{id, name}` reference only when the
id is absent, and is a no-op on a falsy or unknown bundle id; the timed-slot
add `addPlanItemSlot` is a no-op on a falsy or unknown entity id and appends
with the same duplicate prevention when the slot is empty or already a list,
but does NOT normalize a legacy scalar slot — there it throws (`none`).
Both adds touch no other slot, preserve the no-duplicate-id invariant of the
touched slot, and adding the same id twice leaves exactly one reference with
that id in the slot (the second timed-slot add returns the state unchanged). -/
theorem weekly_slot_add_spec :
    (∀ (s : PlanState) (ty day : Str), addPlanItem ty day [] s = s) ∧
    (∀ (s : PlanState) (ty day bid : Str),
      s.bundles.find? (fun b => b.id == bid) = none → addPlanItem ty day bid s = s) ∧
    (∀ (s : PlanState) (ty day bid : Str) (bundle : Bundle) (r : PlanRef),
      bid ≠ [] → s.bundles.find? (fun b => b.id == bid) = some bundle →
      s.plan ty day = .single r →
      (addPlanItem ty day bid s).plan ty day =
        .many (if r.id == bid then [r] else [r, mkRefB bundle])) ∧
    (∀ (s : PlanState) (ty day bid t d : Str), ¬ (t = ty ∧ d = day) →
      (addPlanItem ty day bid s).plan t d = s.plan t d) ∧
    (∀ (s : PlanState) (ty day bid : Str),
      (slotIds (s.plan ty day)).Nodup →
      (slotIds ((addPlanItem ty day bid s).plan ty day)).Nodup) ∧
    (∀ (s : PlanState) (ty day bid : Str) (bundle : Bundle),
      bid ≠ [] → s.bundles.find? (fun b => b.id == bid) = some bundle →
      (slotIds (s.plan ty day)).Nodup →
      slotCount ((addPlanItem ty day bid (addPlanItem ty day bid s)).plan ty day) bid = 1) ∧
    (∀ (s : PlanState) (ty key : Str), addPlanItemSlot ty key [] s = some s) ∧
    (∀ (s : PlanState) (ty key iid : Str), iid ≠ [] →
      (if ty = strOf "activities" then s.activities else s.chores).find?
        (fun i => i.id == iid) = none →
      addPlanItemSlot ty key iid s = some s) ∧
    (∀ (s : PlanState) (ty key iid : Str) (it : Entity) (r : PlanRef), iid ≠ [] →
      (if ty = strOf "activities" then s.activities else s.chores).find?
        (fun i => i.id == iid) = some it →
      s.plan ty key = .single r →
      addPlanItemSlot ty key iid s = none) ∧
    (∀ (s : PlanState) (ty key iid : Str) (it : Entity) (l : List PlanRef), iid ≠ [] →
      (if ty = strOf "activities" then s.activities else s.chores).find?
        (fun i => i.id == iid) = some it →
      (s.plan ty key = .empty ∨ s.plan ty key = .many l) →
      ∃ s2, addPlanItemSlot ty key iid s = some s2 ∧
        (∀ t d, ¬ (t = ty ∧ d = key) → s2.plan t d = s.plan t d) ∧
        ((slotIds (s.plan ty key)).Nodup → (slotIds (s2.plan ty key)).Nodup) ∧
        ((slotIds (s.plan ty key)).Nodup →
          slotCount (s2.plan ty key) iid = 1 ∧
          addPlanItemSlot ty key iid s2 = some s2)) := by
  refine ⟨?_, ?_, ?_, ?_, ?_, ?_, ?_, ?_, ?_, ?_⟩
  · intro s ty day
    rw [addPlanItem, if_pos rfl]
  · intro s ty day bid hfind
    by_cases hbid : bid = []
    · rw [addPlanItem, if_pos hbid]
    · rw [addPlanItem, if_neg hbid, hfind]
  · intro s ty day bid bundle r hbid hfind hslot
    rw [@addPlanItem_found s ty day bid bundle hbid hfind]
    simp only [planSet_same, hslot, normSlot]
    by_cases hr : (r.id == bid) = true
    · rw [if_pos (by simpa using hr), if_pos hr]
    · rw [if_neg (by simpa using hr), if_neg hr]
      rfl
  · intro s ty day bid t d hne
    by_cases hbid : bid = []
    · rw [addPlanItem, if_pos hbid]
    · cases hfind : s.bundles.find? (fun b => b.id == bid) with
      | none => rw [addPlanItem, if_neg hbid, hfind]
      | some bundle =>
        rw [@addPlanItem_found s ty day bid bundle hbid hfind]
        exact planSet_other _ _ _ _ _ _ hne
  · intro s ty day bid hnd
    by_cases hbid : bid = []
    · rw [addPlanItem, if_pos hbid]
      exact hnd
    · cases hfind : s.bundles.find? (fun b => b.id == bid) with
      | none =>
        rw [addPlanItem, if_neg hbid, hfind]
        exact hnd
      | some bundle =>
        rw [@addPlanItem_found s ty day bid bundle hbid hfind]
        simp only [planSet_same]
        rw [slotIds_normSlot]
        exact (normAdd_nodup_count (s.plan ty day) bid (mkRefB bundle)
          (find?_bundle_id hfind) hnd).1
  · intro s ty day bid bundle hbid hfind hnd
    exact addPlanItem_twice hbid hfind hnd
  · intro s ty key
    rw [addPlanItemSlot, if_pos rfl]
  · intro s ty key iid hiid hfind
    rw [addPlanItemSlot, if_neg hiid]
    simp only [hfind]
  · intro s ty key iid it r hiid hfind hslot
    rw [addPlanItemSlot, if_neg hiid]
    simp only [hfind, hslot]
  · intro s ty key iid it l hiid hfind hslot
    refine ⟨_, addPlanItemSlot_found_nonscalar hiid hfind hslot, ?_, ?_, ?_⟩
    · intro t d hne
      exact planSet_other _ _ _ _ _ _ hne
    · intro hnd
      simp only [planSet_same]
      rw [slotIds_normSlot]
      exact (normAdd_nodup_count (s.plan ty key) iid (mkRefE it)
        (find?_entity_id hfind) hnd).1
    · intro hnd
      exact addPlanItemSlot_twice hiid hfind hslot hnd

/-- A state whose `chores` slot `"sat-all"` holds a legacy scalar value. -/
def scalarChoresState : PlanState :=
  { bundles := [⟨strOf "b1", strOf "Pasta", strOf "dinner", []⟩]
    activities := []
    chores := [⟨strOf "c1", strOf "Vacuum"⟩]
    plan := fun t k =>
      if t = strOf "chores" ∧ k = strOf "sat-all" then
        .single ⟨strOf "old", strOf "Old chore"⟩
      else if t = strOf "dinner" ∧ k = strOf "mon" then
        .single ⟨strOf "b0", strOf "Soup"⟩
      else .empty }

/-- Counterexample to C4 as stated: the timed-slot add does NOT normalize a
legacy scalar slot value to a one-element list and append — on a scalar
`chores` slot the code calls `.find` on a non-array and throws (modelled
`none`), so no normalized state is produced at all. -/
theorem addPlanItemSlot_scalar_counterexample :
    addPlanItemSlot (strOf "chores") (strOf "sat-all") (strOf "c1") scalarChoresState =
      none := by
  rfl

/-- Witness for C4 (amended): on the same state, the meal-slot add DOES
normalize the scalar `dinner`/`mon` slot and append, and the timed-slot add
on the empty `chores`/`sun-am` slot succeeds with the duplicate-free list
behaviour. -/
theorem weekly_slot_add_spec_witness :
    (addPlanItem (strOf "dinner") (strOf "mon") (strOf "b1") scalarChoresState).plan
        (strOf "dinner") (strOf "mon") =
      .many (if (⟨strOf "b0", strOf "Soup"⟩ : PlanRef).id == strOf "b1" then
        [⟨strOf "b0", strOf "Soup"⟩]
      else [⟨strOf "b0", strOf "Soup"⟩,
        mkRefB ⟨strOf "b1", strOf "Pasta", strOf "dinner", []⟩]) ∧
    (∃ s2, addPlanItemSlot (strOf "chores") (strOf "sun-am") (strOf "c1")
        scalarChoresState = some s2 ∧
      (∀ t d, ¬ (t = strOf "chores" ∧ d = strOf "sun-am") →
        s2.plan t d = scalarChoresState.plan t d) ∧
      ((slotIds (scalarChoresState.plan (strOf "chores") (strOf "sun-am"))).Nodup →
        (slotIds (s2.plan (strOf "chores") (strOf "sun-am"))).Nodup) ∧
      ((slotIds (scalarChoresState.plan (strOf "chores") (strOf "sun-am"))).Nodup →
        slotCount (s2.plan (strOf "chores") (strOf "sun-am")) (strOf "c1") = 1 ∧
        addPlanItemSlot (strOf "chores") (strOf "sun-am") (strOf "c1") s2 = some s2)) :=
  ⟨weekly_slot_add_spec.2.2.1 scalarChoresState (strOf "dinner") (strOf "mon")
      (strOf "b1") ⟨strOf "b1", strOf "Pasta", strOf "dinner", []⟩
      ⟨strOf "b0", strOf "Soup"⟩ (by decide) (by decide) (by decide),
   weekly_slot_add_spec.2.2.2.2.2.2.2.2.2 scalarChoresState (strOf "chores")
      (strOf "sun-am") (strOf "c1") ⟨strOf "c1", strOf "Vacuum"⟩ []
      (by decide) (by decide) (Or.inl (by decide))⟩

/-! ## Lemmas: find-or-create (C5) -/

theorem findOrCreateItem_create {s : ItemsState} {n : Str} {dfl : ItemDefaults}
    (hf : s.items.find? (fun i => lowerStr i.name == lowerStr n) = none) :
    (findOrCreateItem n dfl s).1.name = n ∧
    (findOrCreateItem n dfl s).2.items = s.items ++ [(findOrCreateItem n dfl s).1] := by
  rw [findOrCreateItem, hf]
  exact ⟨rfl, rfl⟩

/-- C5 (amended): `findOrCreateItem` returns the same item (same id) when
called twice with the same name (case-insensitively — the two calls may
differ in case) from any store state; when no item with that name exists
beforehand, the two calls add exactly one item with that name; when such an
item already exists, the two calls add no item at all (the original claim's
"exactly one item beyond what it contained before" fails there). -/
theorem findOrCreateItem_idempotent :
    (∀ (s : ItemsState) (n1 n2 : Str) (d1 d2 : ItemDefaults),
      lowerStr n1 = lowerStr n2 →
      (findOrCreateItem n2 d2 (findOrCreateItem n1 d1 s).2).1 =
        (findOrCreateItem n1 d1 s).1) ∧
    (∀ (s : ItemsState) (n1 n2 : Str) (d1 d2 : ItemDefaults),
      lowerStr n1 = lowerStr n2 →
      (∀ i ∈ s.items, ¬ lowerStr i.name = lowerStr n1) →
      (findOrCreateItem n2 d2 (findOrCreateItem n1 d1 s).2).2.items
          = s.items ++ [(findOrCreateItem n1 d1 s).1] ∧
      ((findOrCreateItem n2 d2 (findOrCreateItem n1 d1 s).2).2.items.filter
          (fun i => lowerStr i.name == lowerStr n1)).length = 1) ∧
    (∀ (s : ItemsState) (n1 n2 : Str) (d1 d2 : ItemDefaults),
      lowerStr n1 = lowerStr n2 →
      (∃ i ∈ s.items, lowerStr i.name = lowerStr n1) →
      (findOrCreateItem n2 d2 (findOrCreateItem n1 d1 s).2).2.items = s.items) := by
  have keystep : ∀ (s : ItemsState) (n1 n2 : Str) (d1 d2 : ItemDefaults),
      lowerStr n1 = lowerStr n2 →
      s.items.find? (fun i => lowerStr i.name == lowerStr n1) = none →
      findOrCreateItem n2 d2 (findOrCreateItem n1 d1 s).2 =
        ((findOrCreateItem n1 d1 s).1, (findOrCreateItem n1 d1 s).2) := by
    intro s n1 n2 d1 d2 h hf
    obtain ⟨hname, hitems⟩ := findOrCreateItem_create hf
    have hf2 : (findOrCreateItem n1 d1 s).2.items.find?
        (fun i => lowerStr i.name == lowerStr n2) = some (findOrCreateItem n1 d1 s).1 := by
      rw [← h, hitems, List.find?_append, hf]
      simp only [Option.none_or]
      rw [List.find?]
      rw [show (lowerStr (findOrCreateItem n1 d1 s).1.name == lowerStr n1) = true by
        simp [hname]]
    rw [findOrCreateItem, hf2]
  refine ⟨?_, ?_, ?_⟩
  · intro s n1 n2 d1 d2 h
    cases hf : s.items.find? (fun i => lowerStr i.name == lowerStr n1) with
    | some it =>
      have e1 : findOrCreateItem n1 d1 s = (it, s) := by rw [findOrCreateItem, hf]
      have hf2 : s.items.find? (fun i => lowerStr i.name == lowerStr n2) = some it := by
        rw [← h, hf]
      have e2 : findOrCreateItem n2 d2 s = (it, s) := by rw [findOrCreateItem, hf2]
      rw [e1, show ((it, s) : Item × ItemsState).2 = s from rfl, e2]
    | none =>
      rw [keystep s n1 n2 d1 d2 h hf]
  · intro s n1 n2 d1 d2 h habs
    have hf : s.items.find? (fun i => lowerStr i.name == lowerStr n1) = none := by
      rw [List.find?_eq_none]
      intro i hi
      simp [habs i hi]
    obtain ⟨hname, hitems⟩ := findOrCreateItem_create hf
    rw [keystep s n1 n2 d1 d2 h hf]
    refine ⟨hitems, ?_⟩
    rw [show ((findOrCreateItem n1 d1 s).1,
      (findOrCreateItem n1 d1 s).2).2 = (findOrCreateItem n1 d1 s).2 from rfl]
    rw [hitems,
      filter_append_single (fun i hi => by simp [habs i hi]) (by simp [hname])]
    rfl
  · intro s n1 n2 d1 d2 h hex
    obtain ⟨i0, hi0, hn0⟩ := hex
    cases hf : s.items.find? (fun i => lowerStr i.name == lowerStr n1) with
    | some it =>
      have e1 : findOrCreateItem n1 d1 s = (it, s) := by rw [findOrCreateItem, hf]
      have hf2 : s.items.find? (fun i => lowerStr i.name == lowerStr n2) = some it := by
        rw [← h, hf]
      have e2 : findOrCreateItem n2 d2 s = (it, s) := by rw [findOrCreateItem, hf2]
      rw [e1, show ((it, s) : Item × ItemsState).2 = s from rfl, e2]
    | none =>
      rw [List.find?_eq_none] at hf
      exact absurd (by simp [hn0]) (hf i0 hi0)

def milkItem : Item := ⟨strOf "milk", strOf "Milk", strOf "Fridge|Dairy", strOf "pint", []⟩

def milkState : ItemsState := ⟨[milkItem], [(strOf "milk", milkItem)]⟩

/-- Counterexample to C5 as stated: in a store that already contains "Milk",
calling `findOrCreateItem "Milk"` twice leaves the items collection
unchanged — it does NOT contain one item with that name beyond what it
contained before the first call. -/
theorem findOrCreateItem_counterexample :
    (findOrCreateItem (strOf "Milk") ⟨[], [], []⟩
        (findOrCreateItem (strOf "Milk") ⟨[], [], []⟩ milkState).2).2.items =
      milkState.items ∧
    ¬ ((findOrCreateItem (strOf "Milk") ⟨[], [], []⟩
        (findOrCreateItem (strOf "Milk") ⟨[], [], []⟩ milkState).2).2.items.length =
      milkState.items.length + 1) := by
  decide

/-- Witness for C5 (amended): from the empty store, "Milk" then "MILK"
return the same item and add exactly one item. -/
theorem findOrCreateItem_idempotent_witness :
    (findOrCreateItem (strOf "MILK") ⟨[], [], []⟩
        (findOrCreateItem (strOf "Milk") ⟨[], [], []⟩ ⟨[], []⟩).2).1 =
      (findOrCreateItem (strOf "Milk") ⟨[], [], []⟩ ⟨[], []⟩).1 ∧
    (findOrCreateItem (strOf "MILK") ⟨[], [], []⟩
        (findOrCreateItem (strOf "Milk") ⟨[], [], []⟩ ⟨[], []⟩).2).2.items =
      (⟨[], []⟩ : ItemsState).items ++
        [(findOrCreateItem (strOf "Milk") ⟨[], [], []⟩ ⟨[], []⟩).1] :=
  ⟨findOrCreateItem_idempotent.1 ⟨[], []⟩ (strOf "Milk") (strOf "MILK")
      ⟨[], [], []⟩ ⟨[], [], []⟩ (by decide),
   (findOrCreateItem_idempotent.2.1 ⟨[], []⟩ (strOf "Milk") (strOf "MILK")
      ⟨[], [], []⟩ ⟨[], [], []⟩ (by decide) (by intro i hi; simp at hi)).1⟩

/-! ## Lemmas: fresh id generation and the items index (C9) -/

theorem candId_inj {base : Str} {j k : ℕ} (h : candId base j = candId base k) :
    j = k := by
  unfold candId at h
  have h2 := List.append_cancel_left h
  injection h2 with h3 h4
  exact natToDigits_inj h4

theorem idxHas_mem_keys {m : IdxMap} {k : Str} (h : idxHas m k = true) :
    k ∈ m.map Prod.fst := by
  unfold idxHas lookupIdx at h
  cases hf : m.find? (fun p => p.1 == k) with
  | none => rw [hf] at h; simp at h
  | some p =>
    have hp := List.find?_some hf
    have hm := List.mem_of_find?_eq_some hf
    have hk : p.1 = k := by simpa using hp
    rw [← hk]
    exact List.mem_map_of_mem Prod.fst hm

theorem exists_free_cand (m : IdxMap) (base : Str) :
    ∃ j, j ≤ m.length ∧ idxHas m (candId base (1 + j)) = false := by
  by_contra hcon
  push_neg at hcon
  have hall : ∀ j ∈ List.range (m.length + 1),
      idxHas m (candId base (1 + j)) = true := by
    intro j hj
    rw [List.mem_range] at hj
    have hne := hcon j (Nat.lt_succ_iff.mp hj)
    cases hcase : idxHas m (candId base (1 + j)) with
    | false => exact absurd hcase hne
    | true => rfl
  have hnodup : ((List.range (m.length + 1)).map
      (fun j => candId base (1 + j))).Nodup := by
    refine List.Nodup.map ?_ (List.nodup_range _)
    intro a b hab
    have := candId_inj hab
    omega
  have hsub : ∀ x ∈ (List.range (m.length + 1)).map (fun j => candId base (1 + j)),
      x ∈ m.map Prod.fst := by
    intro x hx
    rw [List.mem_map] at hx
    obtain ⟨j, hj, rfl⟩ := hx
    exact idxHas_mem_keys (hall j hj)
  have hcard : ((List.range (m.length + 1)).map
      (fun j => candId base (1 + j))).toFinset.card ≤ (m.map Prod.fst).toFinset.card := by
    apply Finset.card_le_card
    intro x hx
    rw [List.mem_toFinset] at hx
    rw [List.mem_toFinset]
    exact hsub x hx
  rw [List.toFinset_card_of_nodup hnodup] at hcard
  have h1 : ((List.range (m.length + 1)).map
      (fun j => candId base (1 + j))).length = m.length + 1 := by simp
  have h2 : (m.map Prod.fst).toFinset.card ≤ (m.map Prod.fst).length :=
    List.toFinset_card_le _
  rw [h1] at hcard
  simp only [List.length_map] at h2
  omega

theorem freshIdAux_free (m : IdxMap) (base : Str) :
    ∀ (fuel counter : ℕ),
      (∃ j, j ≤ fuel ∧ idxHas m (candId base (counter + j)) = false) →
      idxHas m (freshIdAux m base counter fuel) = false := by
  intro fuel
  induction fuel with
  | zero =>
    intro counter h
    obtain ⟨j, hj, hfree⟩ := h
    have hj0 : j = 0 := Nat.le_zero.mp hj
    subst hj0
    simpa using hfree
  | succ f ih =>
    intro counter h
    obtain ⟨j, hj, hfree⟩ := h
    rw [freshIdAux]
    cases hh : idxHas m (candId base counter) with
    | false => simp [hh]
    | true =>
      simp only [hh, if_true]
      apply ih
      cases j with
      | zero =>
        rw [Nat.add_zero] at hfree
        rw [hfree] at hh
        cases hh
      | succ jj =>
        refine ⟨jj, Nat.succ_le_succ_iff.mp hj, ?_⟩
        rw [show counter + 1 + jj = counter + (jj + 1) from by omega]
        exact hfree

theorem freshId_not_has (m : IdxMap) (base : Str) :
    idxHas m (freshId m base) = false := by
  rw [freshId]
  cases hb : idxHas m base with
  | false => simpa using hb
  | true =>
    simp only [hb, if_true]
    apply freshIdAux_free
    obtain ⟨j, hj, hfree⟩ := exists_free_cand m base
    exact ⟨j, by omega, hfree⟩

theorem idxSet_fresh {m : IdxMap} {k : Str} {v : Item} (h : idxHas m k = false) :
    idxSet m k v = m ++ [(k, v)] := by
  simp [idxSet, h]

theorem lookupIdx_append {m1 m2 : IdxMap} {k : Str} :
    lookupIdx (m1 ++ m2) k = (lookupIdx m1 k).or (lookupIdx m2 k) := by
  rw [lookupIdx, lookupIdx, lookupIdx, List.find?_append]
  cases m1.find? (fun p => p.1 == k) <;> simp

/-- The consistency invariant between `state.items` and `state.itemsById`:
all ids are pairwise distinct and the index resolves every key exactly as a
linear scan of the items collection does (this is what `rebuildItemsIndex`
establishes, and what `addItem` must preserve incrementally). -/
def ItemsInv (s : ItemsState) : Prop :=
  (s.items.map Item.id).Nodup ∧
  ∀ k, lookupIdx s.itemsById k = s.items.find? (fun i => i.id == k)

/-- C9: from any state satisfying the items/index consistency invariant,
`addItem` assigns the new item an id carried by no existing item (the
`while` loop appends "-1", "-2", ... to the base slug until the index has
no entry), appends the item to the items collection, and preserves the
invariant: ids stay pairwise distinct and the index maps exactly each
item's id to that item. -/
theorem addItem_spec (d : ItemData) (s : ItemsState) (hinv : ItemsInv s) :
    (∀ i ∈ s.items, ¬ i.id = (addItem d s).1.id) ∧
    (addItem d s).2.items = s.items ++ [(addItem d s).1] ∧
    ItemsInv (addItem d s).2 := by
  obtain ⟨hnd, hlk⟩ := hinv
  have hid : (addItem d s).1.id
      = freshId s.itemsById (if d.id = [] then slugify d.name else d.id) := rfl
  have hfresh : idxHas s.itemsById (addItem d s).1.id = false := by
    rw [hid]
    exact freshId_not_has _ _
  have hnot : ∀ i ∈ s.items, ¬ i.id = (addItem d s).1.id := by
    intro i hi heq
    have hsome : s.items.find? (fun j => j.id == (addItem d s).1.id) ≠ none := by
      intro hn
      rw [List.find?_eq_none] at hn
      exact hn i hi (by simp [heq])
    have htrue : idxHas s.itemsById (addItem d s).1.id = true := by
      rw [idxHas, hlk ((addItem d s).1.id)]
      cases hc : s.items.find? (fun j => j.id == (addItem d s).1.id) with
      | none => exact absurd hc hsome
      | some _ => rfl
    rw [hfresh] at htrue
    cases htrue
  have hitems : (addItem d s).2.items = s.items ++ [(addItem d s).1] := rfl
  have hindex : (addItem d s).2.itemsById
      = s.itemsById ++ [((addItem d s).1.id, (addItem d s).1)] := by
    have : (addItem d s).2.itemsById
        = idxSet s.itemsById (addItem d s).1.id (addItem d s).1 := rfl
    rw [this, idxSet_fresh hfresh]
  refine ⟨hnot, hitems, ?_, ?_⟩
  · rw [hitems, List.map_append, List.nodup_append]
    refine ⟨hnd, by simp, ?_⟩
    intro a ha hb
    rw [List.mem_map] at ha
    obtain ⟨i, hi, rfl⟩ := ha
    simp only [List.map_cons, List.map_nil, List.mem_cons, List.not_mem_nil,
      or_false] at hb
    exact hnot i hi hb
  · intro k
    rw [hitems, hindex, lookupIdx_append, hlk k, List.find?_append]
    cases hc : ((addItem d s).1.id == k) with
    | false =>
      rw [show lookupIdx [((addItem d s).1.id, (addItem d s).1)] k = none from by
        simp [lookupIdx, List.find?, hc]]
      rw [show [(addItem d s).1].find? (fun i => i.id == k) = none from by
        simp [List.find?, hc]]
    | true =>
      rw [show lookupIdx [((addItem d s).1.id, (addItem d s).1)] k
          = some (addItem d s).1 from by simp [lookupIdx, List.find?, hc]]
      rw [show [(addItem d s).1].find? (fun i => i.id == k)
          = some (addItem d s).1 from by simp [List.find?, hc]]

def dairyItem : Item :=
  ⟨strOf "milk", strOf "Milk", strOf "Fridge|Dairy", strOf "pint", []⟩

def dairyState : ItemsState := ⟨[dairyItem], [(strOf "milk", dairyItem)]⟩

/-- Witness for C9: adding a second item whose name also slugifies to
"milk" to a consistent one-item store yields a fresh id, appends the item,
and keeps the invariant. -/
theorem addItem_spec_witness :
    (∀ i ∈ dairyState.items,
      ¬ i.id = (addItem ⟨[], strOf "Milk", [], [], []⟩ dairyState).1.id) ∧
    (addItem ⟨[], strOf "Milk", [], [], []⟩ dairyState).2.items
      = dairyState.items ++ [(addItem ⟨[], strOf "Milk", [], [], []⟩ dairyState).1] ∧
    ItemsInv (addItem ⟨[], strOf "Milk", [], [], []⟩ dairyState).2 :=
  addItem_spec ⟨[], strOf "Milk", [], [], []⟩ dairyState
    ⟨by decide, fun k => by
      cases hc : (strOf "milk" == k) with
      | false => simp [dairyState, dairyItem, lookupIdx, List.find?, hc]
      | true => simp [dairyState, dairyItem, lookupIdx, List.find?, hc]⟩
